import Mathlib

/-!
# Remote session gateway (`backend/main.go`): a shallow embedding

The Go program keeps one SSH connection (`sshClient`) and the SFTP client
derived from it (`sftpClient`) in package-level variables and serves HTTP
requests that drive them.

The embedding is in three layers.

* `World σ` is the interface to everything outside the process: the
  `ssh` / `sftp` libraries talking to the remote host, and the output sinks
  (the zip writer and the HTTP response body).  Every operation is a
  state-passing function on an arbitrary state `σ`, so a theorem stated for
  every `World σ` holds for every deterministic behaviour of the remote.
* The handlers (`removeDir`, `handleDelete`, `walkDir`, ...) are translated
  from `backend/main.go` statement by statement.  Each returns, next to its
  result, the list of `Event`s (calls together with their outcome) it
  performed, in order.  Recursion over remote data takes a fuel argument;
  `none` means the fuel ran out.
* `simWorld` is one concrete world: a remote file system holding a finite
  directory tree, and an in-memory archive.
-/

namespace Gateway

/-! ## Data -/

/-- An error value; `%v` prints its message. -/
abbrev Err := String

/-- File contents. -/
abbrev Bytes := List UInt8

/-- An `os.FileInfo` as returned by `ReadDir` / `Stat`: what the program reads
of it (`Name()`, `Size()`, `IsDir()`, `ModTime()`, the latter kept in its
RFC 3339 rendering). -/
structure Entry where
  Name : String
  Size : Nat
  IsDir : Bool
  ModTime : String
  deriving DecidableEq, Repr

/-- The JSON record of `handleFiles` (`type FileInfo struct`). -/
structure FileInfo where
  Name : String
  Size : Nat
  IsDir : Bool
  ModTime : String
  deriving DecidableEq, Repr

/-- A `*ssh.Client`.  Pointer identity is modelled by a serial number: each
successful `ssh.Dial` yields a client that did not exist before. -/
structure SshClient where
  id : Nat
  deriving DecidableEq, Repr

/-- A `*sftp.Client`; `sftp.NewClient conn` builds it on the connection
`conn`, which it keeps. -/
structure SftpClient where
  conn : SshClient
  deriving DecidableEq, Repr

/-- An open remote file (`*sftp.File`) as the program uses it: reading it
yields `Data` and then end of file, or `ReadErr` if that is set; `Stat()` on
the handle yields `Info`. -/
structure RemoteFile where
  Data : Bytes
  ReadErr : Option Err
  Info : Except Err Entry

/-- The error of `session.CombinedOutput`: an `*ssh.ExitError` carrying the
remote exit status, or any other error. -/
inductive ExecError
  | exit (status : Int) (msg : Err)
  | other (msg : Err)
  deriving DecidableEq, Repr

/-- The message of an `ExecError` (`err.Error()`). -/
def ExecError.msg : ExecError → Err
  | .exit _ m => m
  | .other m => m

/-- A `zip.FileHeader`, the fields the program sets or that
`zip.FileInfoHeader` fills in. -/
structure FileHeader where
  Name : String
  Method : Nat
  UncompressedSize : Nat
  Modified : String
  deriving DecidableEq, Repr

/-- The constant `zip.Deflate`. -/
def Deflate : Nat := 8

/-- The calls the process makes on its environment. -/
inductive Call
  | Dial (addr user password : String)
  | NewClient (conn : SshClient)
  | CloseSftp (c : SftpClient)
  | CloseSsh (c : SshClient)
  | ReadDir (path : String)
  | Remove (path : String)
  | RemoveDirectory (path : String)
  | Stat (path : String)
  | Open (path : String)
  | Create (path : String)
  | Mkdir (path : String)
  | Rename (oldPath newPath : String)
  | Write (path : String) (data : Bytes)
  | NewSession (c : SshClient)
  | Output (cmd : String)
  | CombinedOutput (cmd : String)
  | ZipCreate (name : String)
  | ZipCreateHeader (h : FileHeader)
  | ZipWrite (data : Bytes)
  | RespWrite (data : Bytes)
  | Read (path : String)
  | CloseFile (path : String)
  | CloseSession (c : SshClient)
  | ZipClose
  | Log (msg : String)
  deriving DecidableEq, Repr

/-- A call on the remote host, as opposed to a write to a local sink (the zip
writer and the HTTP response body). -/
def Call.isRemote : Call → Bool
  | .ZipCreate _ => false
  | .ZipCreateHeader _ => false
  | .ZipWrite _ => false
  | .RespWrite _ => false
  | .ZipClose => false
  | .Log _ => false
  | _ => true

/-- A call that removes something on the remote. -/
def Call.isRemoval : Call → Bool
  | .Remove _ => true
  | .RemoveDirectory _ => true
  | _ => false

/-- The path a removal call is about. -/
def Call.removed : Call → Option String
  | .Remove p => some p
  | .RemoveDirectory p => some p
  | _ => none

/-- A call that lists a directory. -/
def Call.isListing : Call → Bool
  | .ReadDir _ => true
  | _ => false

/-- A performed call and its error (`none` is Go's `nil`). -/
structure Event where
  call : Call
  err : Option Err
  deriving DecidableEq, Repr

/-- The environment of the process.  Handles are passed along so that a world
may tell connections apart. -/
structure World (σ : Type) where
  Dial : String → String → String → σ → Option Err × σ
  NewClient : SshClient → σ → Option Err × σ
  CloseSftp : SftpClient → σ → Option Err × σ
  CloseSsh : SshClient → σ → Option Err × σ
  ReadDir : SftpClient → String → σ → Except Err (List Entry) × σ
  Remove : SftpClient → String → σ → Option Err × σ
  RemoveDirectory : SftpClient → String → σ → Option Err × σ
  Stat : SftpClient → String → σ → Except Err Entry × σ
  Open : SftpClient → String → σ → Except Err RemoteFile × σ
  Create : SftpClient → String → σ → Option Err × σ
  Mkdir : SftpClient → String → σ → Option Err × σ
  Rename : SftpClient → String → String → σ → Option Err × σ
  Write : SftpClient → String → Bytes → σ → Except Err Nat × σ
  NewSession : SshClient → σ → Option Err × σ
  Output : SshClient → String → σ → Except Err String × σ
  CombinedOutput : SshClient → String → σ → (String × Option ExecError) × σ
  ZipCreate : String → σ → Option Err × σ
  ZipCreateHeader : FileHeader → σ → Option Err × σ
  ZipWrite : Bytes → σ → Option Err × σ
  RespWrite : Bytes → σ → Option Err × σ
  CloseFile : SftpClient → String → σ → Option Err × σ
  CloseSession : SshClient → σ → Option Err × σ
  ZipClose : σ → Option Err × σ

/-- The error of an `Except`, if any. -/
def errOf {α : Type} : Except Err α → Option Err
  | .ok _ => none
  | .error e => some e

/-! ## Go library functions on strings and paths

Go strings are byte strings; the functions below only ever look for the ASCII
bytes `/`, `\`, `.` and `,`, which in UTF-8 never occur inside the encoding
of another character, so they are stated on characters. -/

/-- The function `strings.ReplaceAll s old new` for one-character `old` and `new`. -/
def replaceAll (s : String) (old new : Char) : String :=
  ⟨s.data.map fun c => if c = old then new else c⟩

/-- Splitting a character list at every `sep`: the fields between the
separators, empty ones included. -/
def splitChars (sep : Char) : List Char → List (List Char)
  | [] => [[]]
  | c :: cs =>
    if c = sep then [] :: splitChars sep cs
    else
      match splitChars sep cs with
      | [] => [[c]]
      | field :: more => (c :: field) :: more

/-- The function `strings.Split s sep` for a one-character separator. -/
def split (s : String) (sep : Char) : List String :=
  (splitChars sep s.data).map String.mk

/-- The predicate `unicode.IsSpace`. -/
def isSpace (c : Char) : Bool :=
  let n := c.toNat
  n = 0x20 || (0x09 ≤ n && n ≤ 0x0D) || n = 0x85 || n = 0xA0 || n = 0x1680 ||
  (0x2000 ≤ n && n ≤ 0x200A) || n = 0x2028 || n = 0x2029 || n = 0x202F ||
  n = 0x205F || n = 0x3000

/-- The function `strings.TrimSpace`. -/
def trimSpace (s : String) : String :=
  ⟨((s.data.dropWhile isSpace).reverse.dropWhile isSpace).reverse⟩

/-- The backtracking step of `path.Clean` on the reversed output buffer:
`out.w--`, then `for out.w > dotdot && out.index(out.w) != '/' { out.w-- }`. -/
def backtrack (dotdot : Nat) : List Char → List Char
  | [] => []
  | c :: out => if dotdot < out.length ∧ c ≠ '/' then backtrack dotdot out else out

/-- Copying one path element in `path.Clean`:
`for ; r < n && path[r] != '/'; r++ { out.append(path[r]) }`.  Returns the
unread input and the (reversed) buffer. -/
def copyElem : List Char → List Char → List Char × List Char
  | [], out => ([], out)
  | c :: rest, out => if c = '/' then (c :: rest, out) else copyElem rest (c :: out)

/-- The main loop `for r < n` of `path.Clean`: `rest` is `path[r:]`, `out` the
output buffer reversed, `dotdot` the index where `..` must stop.  Every round
consumes input, so fuel `n` suffices. -/
def cleanLoop (rooted : Bool) : Nat → List Char → List Char → Nat → List Char
  | 0, _, out, _ => out
  | _ + 1, [], out, _ => out
  | fuel + 1, c :: rest, out, dotdot =>
    if c = '/' then
      -- empty path element
      cleanLoop rooted fuel rest out dotdot
    else if c = '.' ∧ (rest = [] ∨ rest.head? = some '/') then
      -- . element
      cleanLoop rooted fuel rest out dotdot
    else if c = '.' ∧ rest.head? = some '.' ∧
        (rest.tail = [] ∨ rest.tail.head? = some '/') then
      -- .. element: remove to last /
      if dotdot < out.length then
        cleanLoop rooted fuel rest.tail (backtrack dotdot out) dotdot
      else if !rooted then
        let out1 := if 0 < out.length then '/' :: out else out
        let out2 := '.' :: '.' :: out1
        cleanLoop rooted fuel rest.tail out2 out2.length
      else
        cleanLoop rooted fuel rest.tail out dotdot
    else
      -- real path element
      let out1 :=
        if (rooted ∧ out.length ≠ 1) ∨ (!rooted ∧ out.length ≠ 0) then '/' :: out else out
      let (rest1, out2) := copyElem (c :: rest) out1
      cleanLoop rooted fuel rest1 out2 dotdot

/-- The function `path.Clean` of the Go standard library. -/
def Clean (path : String) : String :=
  if path = "" then "."
  else
    let rooted := path.data.head? = some '/'
    let out :=
      if rooted then cleanLoop true path.data.length path.data.tail ['/'] 1
      else cleanLoop false path.data.length path.data [] 0
    if out.length = 0 then "." else ⟨out.reverse⟩

/-- The function `path.Join` for two elements: nothing for two empty
elements; otherwise the elements from the first non-empty one on, joined with
`/` and cleaned. -/
def Join (a b : String) : String :=
  if a.length + b.length = 0 then ""
  else if a = "" then Clean b
  else Clean (a ++ "/" ++ b)

/-- The prefix of a character list up to and including its last `/`
(`path[:i+1]` for `i` the last index of `/`, or `-1`). -/
def dirPart : List Char → List Char
  | [] => []
  | c :: cs =>
    if '/' ∈ cs then c :: dirPart cs
    else if c = '/' then [c] else []

/-- The function `path.Dir`: everything up to the last slash, cleaned. -/
def Dir (path : String) : String :=
  Clean ⟨dirPart path.data⟩

/-- The function `path.Base`: the last element of the path, trailing slashes
removed. -/
def Base (path : String) : String :=
  if path = "" then "."
  else
    let stripped := (path.data.reverse.dropWhile (· = '/')).reverse
    let last := (stripped.reverse.takeWhile (· ≠ '/')).reverse
    if last = [] then "/" else ⟨last⟩

/-- The function `strings.Fields`: the maximal runs of non-space characters.
`cur` is the field under construction, reversed. -/
def fieldsAux : List Char → List Char → List String
  | [], cur => if cur = [] then [] else [⟨cur.reverse⟩]
  | c :: cs, cur =>
    if isSpace c then
      if cur = [] then fieldsAux cs [] else ⟨cur.reverse⟩ :: fieldsAux cs []
    else fieldsAux cs (c :: cur)

/-- The function `strings.Fields`. -/
def fields (s : String) : List String :=
  fieldsAux s.data []

/-- The function `strings.HasPrefix`. -/
def hasPrefix (s pre : String) : Bool :=
  pre.data.isPrefixOf s.data

/-- The value of `strconv.ParseInt(s, 10, 64)`, which the program uses without
looking at the error: `0` on a syntax error, the nearest bound of `int64` when
out of range. -/
def parseInt (s : String) : Int :=
  let cs := s.data
  let neg := cs.head? = some '-'
  let ds := if cs.head? = some '-' ∨ cs.head? = some '+' then cs.tail else cs
  if ds = [] ∨ ¬ ds.all Char.isDigit then 0
  else
    let n : Nat := ds.foldl (fun a c => a * 10 + (c.toNat - 48)) 0
    if neg then (if 2 ^ 63 < n then -(2 ^ 63 : Int) else -(n : Int))
    else (if 2 ^ 63 ≤ n then (2 ^ 63 : Int) - 1 else (n : Int))

/-! ## Requests, responses, the session store -/

/-- A multipart form: its values, and the part named `file` (its
`header.Filename` and content) if there is one. -/
structure Form where
  values : List (String × String)
  file : Option (String × Bytes)

/-- A decoded JSON object: its string and integer fields; a field that is
absent reads as the zero value. -/
structure JsonBody where
  str : String → String
  int : String → Int

/-- An HTTP request, as far as the handlers look at it: `r.Method`, the URL
query, the result of decoding the body as JSON (`none`: the decoder returned an
error) and the result of `r.ParseMultipartForm`. -/
structure Request where
  Method : String
  Query : List (String × String)
  Json : Option JsonBody
  Form : Except Err Form

/-- The call `r.URL.Query().Get(key)`. -/
def Request.query (r : Request) (key : String) : String :=
  (r.Query.lookup key).getD ""

/-- The call `r.FormValue(key)`. -/
def Form.value (f : Form) (key : String) : String :=
  (f.values.lookup key).getD ""

/-- One row of `handleDiskInfo` (`type DiskInfo struct`). -/
structure DiskInfo where
  Filesystem : String
  Total : Int
  Used : Int
  Available : Int
  UsePercent : String
  MountedOn : String
  deriving DecidableEq, Repr

/-- The JSON values the handlers send. -/
inductive Body
  | error (msg : String)
  | status (s : String)
  | files (l : List FileInfo)
  | uploaded (filename : String) (size : Nat)
  | disks (l : List DiskInfo)
  | info (m : List (String × String))
  | exists_ (b : Bool)
  | content (content : Bytes) (size : Nat)
  | saved (size : Nat)
  | exec (output : String) (exitCode : Int)
  deriving DecidableEq, Repr

/-- What a handler puts on the `http.ResponseWriter`: a JSON document with a
status code, the headers of a download whose bytes go through the sinks of the
world, or a bare status line. -/
inductive Response
  | json (status : Nat) (body : Body)
  | attachment (disposition contentType : String) (contentLength : Option Nat)
  | bare (status : Nat)
  deriving DecidableEq, Repr

/-- The function `jsonResponse`. -/
def jsonResponse (status : Nat) (data : Body) : Response :=
  .json status data

/-- The function `jsonError`. -/
def jsonError (status : Nat) (msg : String) : Response :=
  jsonResponse status (.error msg)

/-- The package-level variables `sshClient` and `sftpClient`.  The mutex `mu`
is not modelled: handlers run one after the other.  `dials` is a ghost counter
of the successful `ssh.Dial` calls, from which new clients get their identity. -/
structure Server where
  sshClient : Option SshClient
  sftpClient : Option SftpClient
  dials : Nat
  deriving DecidableEq, Repr

section Session
variable {σ : Type}

/-- The function `handleConnect` (main.go 64-119).  `ssh.Dial` and
`sftp.NewClient` return a nil client together with an error, so the
assignments `sshClient, err = ...` and `sftpClient, err = ...` store nil when
they fail. -/
def handleConnect (W : World σ) (srv : Server) (r : Request) (s : σ) :
    Response × Server × σ × List Event :=
  if r.Method ≠ "POST" then (jsonError 405 "Method not allowed", srv, s, [])
  else
    match r.Json with
    | none => (jsonError 400 "Invalid request body", srv, s, [])
    | some req =>
      let port := if req.int "port" = 0 then 22 else req.int "port"
      -- Close existing connection if any
      let (s1, t1) :=
        match srv.sftpClient with
        | some c => match W.CloseSftp c s with
          | (e, s') => (s', [(⟨.CloseSftp c, e⟩ : Event)])
        | none => (s, [])
      let (s2, t2) :=
        match srv.sshClient with
        | some c => match W.CloseSsh c s1 with
          | (e, s') => (s', [(⟨.CloseSsh c, e⟩ : Event)])
        | none => (s1, [])
      let addr := req.str "host" ++ ":" ++ toString port
      let dial := Call.Dial addr (req.str "user") (req.str "password")
      match W.Dial addr (req.str "user") (req.str "password") s2 with
      | (some err, s3) =>
        (jsonError 500 ("SSH connection failed: " ++ err),
          { srv with sshClient := none, sftpClient := none }, s3,
          t1 ++ t2 ++ [⟨dial, some err⟩])
      | (none, s3) =>
        let conn : SshClient := ⟨srv.dials⟩
        match W.NewClient conn s3 with
        | (some err, s4) =>
          match W.CloseSsh conn s4 with
          | (cerr, s5) =>
            (jsonError 500 ("SFTP session failed: " ++ err),
              { sshClient := none, sftpClient := none, dials := srv.dials + 1 }, s5,
              t1 ++ t2 ++ [⟨dial, none⟩, ⟨.NewClient conn, some err⟩, ⟨.CloseSsh conn, cerr⟩])
        | (none, s4) =>
          (jsonResponse 200 (.status "connected"),
            { sshClient := some conn, sftpClient := some ⟨conn⟩, dials := srv.dials + 1 }, s4,
            t1 ++ t2 ++ [⟨dial, none⟩, ⟨.NewClient conn, none⟩])

/-- The function `handleDisconnect` (main.go 815-829). -/
def handleDisconnect (W : World σ) (srv : Server) (_r : Request) (s : σ) :
    Response × Server × σ × List Event :=
  let (s1, t1) :=
    match srv.sftpClient with
    | some c => match W.CloseSftp c s with
      | (e, s') => (s', [(⟨.CloseSftp c, e⟩ : Event)])
    | none => (s, [])
  let (s2, t2) :=
    match srv.sshClient with
    | some c => match W.CloseSsh c s1 with
      | (e, s') => (s', [(⟨.CloseSsh c, e⟩ : Event)])
    | none => (s1, [])
  (jsonResponse 200 (.status "disconnected"),
    { srv with sshClient := none, sftpClient := none }, s2, t1 ++ t2)

end Session

/-! ## Command runner -/

section Runner
variable {σ : Type}

/-- The function `handleExec` (main.go 768-813); `session.Close()` is deferred. -/
def handleExec (W : World σ) (srv : Server) (r : Request) (s : σ) :
    Response × σ × List Event :=
  if r.Method ≠ "POST" then (jsonError 405 "Method not allowed", s, [])
  else
    match srv.sshClient with
    | none => (jsonError 400 "Not connected", s, [])
    | some client =>
      match r.Json with
      | none => (jsonError 400 "Invalid request", s, [])
      | some req =>
        match W.NewSession client s with
        | (some err, s1) =>
          (jsonError 500 ("Session failed: " ++ err), s1, [⟨.NewSession client, some err⟩])
        | (none, s1) =>
          match W.CombinedOutput client (req.str "command") s1 with
          | ((output, err), s2) =>
            let run : Event := ⟨.CombinedOutput (req.str "command"), err.map ExecError.msg⟩
            match W.CloseSession client s2 with
            | (cerr, s3) =>
              let t := [⟨.NewSession client, none⟩, run, ⟨.CloseSession client, cerr⟩]
              match err with
              | none => (jsonResponse 200 (.exec output 0), s3, t)
              | some (.exit status _) => (jsonResponse 200 (.exec output status), s3, t)
              | some (.other msg) => (jsonError 500 ("Exec failed: " ++ msg), s3, t)

/-- The function `runSSHCommand` (main.go 449-469). -/
def runSSHCommand (W : World σ) (srv : Server) (cmd : String) (s : σ) :
    Except Err String × σ × List Event :=
  match srv.sshClient with
  | none => (.error "not connected", s, [])
  | some client =>
    match W.NewSession client s with
    | (some err, s1) => (.error err, s1, [⟨.NewSession client, some err⟩])
    | (none, s1) =>
      match W.Output client cmd s1 with
      | (res, s2) =>
        match W.CloseSession client s2 with
        | (cerr, s3) =>
          (res.map trimSpace, s3,
            [⟨.NewSession client, none⟩, ⟨.Output cmd, errOf res⟩, ⟨.CloseSession client, cerr⟩])

/-- One row of the `df` output in `handleDiskInfo` (main.go 421-444): `none`
when the line is skipped. -/
def diskRow (line : String) : Option DiskInfo :=
  let f := fields line
  if f.length < 6 then none
  else
    -- Skip tmpfs, devtmpfs etc
    let fs := f.getD 0 ""
    if hasPrefix fs "tmpfs" || hasPrefix fs "devtmpfs" || hasPrefix fs "udev" || fs == "none"
    then none
    else some { Filesystem := fs, Total := parseInt (f.getD 1 ""), Used := parseInt (f.getD 2 ""),
                Available := parseInt (f.getD 3 ""), UsePercent := f.getD 4 "",
                MountedOn := f.getD 5 "" }

/-- The function `handleDiskInfo` (main.go 395-447). -/
def handleDiskInfo (W : World σ) (srv : Server) (_r : Request) (s : σ) :
    Response × σ × List Event :=
  match srv.sshClient with
  | none => (jsonError 400 "Not connected", s, [])
  | some client =>
    match W.NewSession client s with
    | (some err, s1) =>
      (jsonError 500 ("SSH session failed: " ++ err), s1, [⟨.NewSession client, some err⟩])
    | (none, s1) =>
      match W.Output client "df -B1 2>/dev/null || df -k" s1 with
      | (res, s2) =>
        match W.CloseSession client s2 with
        | (cerr, s3) =>
          let t := [⟨.NewSession client, none⟩,
            ⟨.Output "df -B1 2>/dev/null || df -k", errOf res⟩, ⟨.CloseSession client, cerr⟩]
          match res with
          | .error err => (jsonError 500 ("df command failed: " ++ err), s3, t)
          | .ok output =>
            let lines := split (trimSpace output) '\n'
            (jsonResponse 200 (.disks (lines.tail.filterMap diskRow)), s3, t)

/-- The assignment `info[key] = v` on a map kept as an association list. -/
def setKey (info : List (String × String)) (key v : String) : List (String × String) :=
  info.filter (fun kv => kv.1 != key) ++ [(key, v)]

/-- The statement `if v, err := runSSHCommand(cmd); err == nil { info[key] = value(v) }`
of `handleSysInfo`; with `nonEmpty` the condition is `err == nil && v != ""`. -/
def sysField (W : World σ) (srv : Server) (key cmd : String) (nonEmpty : Bool)
    (value : String → String)
    (acc : List (String × String) × σ × List Event) : List (String × String) × σ × List Event :=
  match runSSHCommand W srv cmd acc.2.1 with
  | (.ok v, s1, t) =>
    (if nonEmpty && v == "" then acc.1 else setKey acc.1 key (value v), s1, acc.2.2 ++ t)
  | (.error _, s1, t) => (acc.1, s1, acc.2.2 ++ t)

/-- The `os` entry of `handleSysInfo` (main.go 489-493): `/etc/os-release`
first, `uname -o` when that fails or prints nothing. -/
def sysOs (W : World σ) (srv : Server)
    (acc : List (String × String) × σ × List Event) : List (String × String) × σ × List Event :=
  match runSSHCommand W srv
      "cat /etc/os-release 2>/dev/null | grep PRETTY_NAME | cut -d\x27\"\x27 -f2" acc.2.1 with
  | (r, s1, t) =>
    match r with
    | .ok v =>
      if v ≠ "" then (setKey acc.1 "os" v, s1, acc.2.2 ++ t)
      else sysField W srv "os" "uname -o" false id (acc.1, s1, acc.2.2 ++ t)
    | .error _ => sysField W srv "os" "uname -o" false id (acc.1, s1, acc.2.2 ++ t)

/-- The RAM entries of `handleSysInfo` (main.go 521-528). -/
def sysRam (W : World σ) (srv : Server)
    (acc : List (String × String) × σ × List Event) : List (String × String) × σ × List Event :=
  match runSSHCommand W srv "free -b | grep Mem" acc.2.1 with
  | (.ok v, s1, t) =>
    let f := fields v
    (if 4 ≤ f.length then
        setKey (setKey (setKey acc.1 "ram_total" (f.getD 1 "")) "ram_used" (f.getD 2 ""))
          "ram_free" (f.getD 3 "")
      else acc.1, s1, acc.2.2 ++ t)
  | (.error _, s1, t) => (acc.1, s1, acc.2.2 ++ t)

/-- The function `handleSysInfo` (main.go 471-541). -/
def handleSysInfo (W : World σ) (srv : Server) (_r : Request) (s : σ) :
    Response × σ × List Event :=
  match srv.sshClient with
  | none => (jsonError 400 "Not connected", s, [])
  | some _ =>
    let a0 : List (String × String) × σ × List Event := ([], s, [])
    let a1 := sysField W srv "hostname" "hostname" false id a0
    let a2 := sysOs W srv a1
    let a3 := sysField W srv "kernel" "uname -r" false id a2
    let a4 := sysField W srv "arch" "uname -m" false id a3
    let a5 := sysField W srv "uptime" "uptime -p 2>/dev/null || uptime" false id a4
    let a6 := sysField W srv "cpu" "grep \x27model name\x27 /proc/cpuinfo | head -1 | cut -d\x27:\x27 -f2"
      true trimSpace a5
    let a7 := sysField W srv "cores" "nproc" false id a6
    let a8 := sysRam W srv a7
    let a9 := sysField W srv "load" "cat /proc/loadavg | cut -d\x27 \x27 -f1-3" false id a8
    let a10 := sysField W srv "ip" "hostname -I 2>/dev/null | awk \x27\x7bprint $1\x7d\x27" true id a9
    (jsonResponse 200 (.info a10.1), a10.2.1, a10.2.2)

end Runner

/-! ## Pass-through file operations -/

section Files
variable {σ : Type}

/-- The function `handleFiles` (main.go 121-158). -/
def handleFiles (W : World σ) (srv : Server) (r : Request) (s : σ) :
    Response × σ × List Event :=
  if r.Method ≠ "GET" then (jsonError 405 "Method not allowed", s, [])
  else
    match srv.sftpClient with
    | none => (jsonError 400 "Not connected", s, [])
    | some client =>
      let dirPath := if r.query "path" = "" then "." else r.query "path"
      match W.ReadDir client dirPath s with
      | (.error err, s1) =>
        (jsonError 500 ("Failed to list files: " ++ err), s1, [⟨.ReadDir dirPath, some err⟩])
      | (.ok entries, s1) =>
        (jsonResponse 200 (.files (entries.map fun entry =>
            { Name := entry.Name, Size := entry.Size, IsDir := entry.IsDir,
              ModTime := entry.ModTime })), s1, [⟨.ReadDir dirPath, none⟩])

/-- The function `handleRename` (main.go 281-311). -/
def handleRename (W : World σ) (srv : Server) (r : Request) (s : σ) :
    Response × σ × List Event :=
  if r.Method ≠ "POST" then (jsonError 405 "Method not allowed", s, [])
  else
    match srv.sftpClient with
    | none => (jsonError 400 "Not connected", s, [])
    | some client =>
      match r.Json with
      | none => (jsonError 400 "Invalid request", s, [])
      | some req =>
        match W.Rename client (req.str "oldPath") (req.str "newPath") s with
        | (some err, s1) =>
          (jsonError 500 ("Rename failed: " ++ err), s1,
            [⟨.Rename (req.str "oldPath") (req.str "newPath"), some err⟩])
        | (none, s1) =>
          (jsonResponse 200 (.status "renamed"), s1,
            [⟨.Rename (req.str "oldPath") (req.str "newPath"), none⟩])

/-- The function `handleMkdir` (main.go 313-342). -/
def handleMkdir (W : World σ) (srv : Server) (r : Request) (s : σ) :
    Response × σ × List Event :=
  if r.Method ≠ "POST" then (jsonError 405 "Method not allowed", s, [])
  else
    match srv.sftpClient with
    | none => (jsonError 400 "Not connected", s, [])
    | some client =>
      match r.Json with
      | none => (jsonError 400 "Invalid request", s, [])
      | some req =>
        match W.Mkdir client (req.str "path") s with
        | (some err, s1) =>
          (jsonError 500 ("Mkdir failed: " ++ err), s1, [⟨.Mkdir (req.str "path"), some err⟩])
        | (none, s1) =>
          (jsonResponse 200 (.status "created"), s1, [⟨.Mkdir (req.str "path"), none⟩])

/-- The function `handleExists` (main.go 543-556). -/
def handleExists (W : World σ) (srv : Server) (r : Request) (s : σ) :
    Response × σ × List Event :=
  match srv.sftpClient with
  | none => (jsonError 400 "Not connected", s, [])
  | some client =>
    match W.Stat client (r.query "path") s with
    | (res, s1) =>
      (jsonResponse 200 (.exists_ (errOf res == none)), s1, [⟨.Stat (r.query "path"), errOf res⟩])

end Files

/-! ## Recursive remover -/

section Remover
variable {σ : Type}

/-- The loop `for _, entry := range entries` of `removeDir`, with the recursive
call passed in as `self`. -/
def removeEntries (W : World σ) (client : SftpClient)
    (self : String → σ → Option (Option Err × σ × List Event)) (dirPath : String) :
    List Entry → σ → Option (Option Err × σ × List Event)
  | [], s => some (none, s, [])
  | entry :: rest, s =>
    let fullPath := dirPath ++ "/" ++ entry.Name
    if entry.IsDir then
      match self fullPath s with
      | none => none
      | some (some err, s1, t1) => some (some err, s1, t1)
      | some (none, s1, t1) =>
        match removeEntries W client self dirPath rest s1 with
        | none => none
        | some (r, s2, t2) => some (r, s2, t1 ++ t2)
    else
      match W.Remove client fullPath s with
      | (some err, s1) => some (some err, s1, [⟨.Remove fullPath, some err⟩])
      | (none, s1) =>
        match removeEntries W client self dirPath rest s1 with
        | none => none
        | some (r, s2, t2) => some (r, s2, ⟨.Remove fullPath, none⟩ :: t2)

/-- The function `removeDir` (main.go 558-576). -/
def removeDir (W : World σ) (client : SftpClient) :
    Nat → String → σ → Option (Option Err × σ × List Event)
  | 0, _, _ => none
  | fuel + 1, dirPath, s =>
    match W.ReadDir client dirPath s with
    | (.error err, s1) => some (some err, s1, [⟨.ReadDir dirPath, some err⟩])
    | (.ok entries, s1) =>
      match removeEntries W client (removeDir W client fuel) dirPath entries s1 with
      | none => none
      | some (some err, s2, t) => some (some err, s2, ⟨.ReadDir dirPath, none⟩ :: t)
      | some (none, s2, t) =>
        match W.RemoveDirectory client dirPath s2 with
        | (r, s3) =>
          some (r, s3, ⟨.ReadDir dirPath, none⟩ :: (t ++ [⟨.RemoveDirectory dirPath, r⟩]))

/-- The function `handleDelete` (main.go 238-279). -/
def handleDelete (W : World σ) (srv : Server) (fuel : Nat) (r : Request) (s : σ) :
    Option (Response × σ × List Event) :=
  if r.Method ≠ "DELETE" then some (jsonError 405 "Method not allowed", s, [])
  else
    match srv.sftpClient with
    | none => some (jsonError 400 "Not connected", s, [])
    | some client =>
      let filePath := r.query "path"
      if filePath = "" then some (jsonError 400 "Path is required", s, [])
      else
        -- Try simple remove first, if fails try recursive
        match W.Remove client filePath s with
        | (none, s1) =>
          some (jsonResponse 200 (.status "deleted"), s1, [⟨.Remove filePath, none⟩])
        | (some err, s1) =>
          -- Check if it's a directory
          match W.Stat client filePath s1 with
          | (.error statErr, s2) =>
            some (jsonError 500 ("Failed to delete: " ++ err), s2,
              [⟨.Remove filePath, some err⟩, ⟨.Stat filePath, some statErr⟩])
          | (.ok stat, s2) =>
            if stat.IsDir then
              match removeDir W client fuel filePath s2 with
              | none => none
              | some (some rmErr, s3, t) =>
                some (jsonError 500 ("Failed to delete directory: " ++ rmErr), s3,
                  ⟨.Remove filePath, some err⟩ :: ⟨.Stat filePath, none⟩ :: t)
              | some (none, s3, t) =>
                some (jsonResponse 200 (.status "deleted"), s3,
                  ⟨.Remove filePath, some err⟩ :: ⟨.Stat filePath, none⟩ :: t)
            else
              some (jsonError 500 ("Failed to delete: " ++ err), s2,
                [⟨.Remove filePath, some err⟩, ⟨.Stat filePath, none⟩])

end Remover

/-! ## Tree archiver -/

section Archiver
variable {σ : Type}

/-- The map `skipDirs` (main.go 578-581), as the list of its keys. -/
def skipDirs : List String :=
  ["node_modules", ".git", "__pycache__", ".cache", "vendor", ".next", "dist"]

/-- The map `extraSkip` that `handleDownloadDir` builds from the `exclude`
query parameter (main.go 613-619), as the list of its keys. -/
def extraSkipOf (excludeParam : String) : List String :=
  if excludeParam ≠ "" then (split excludeParam ',').map trimSpace else []

/-- The condition of the `continue` in `walkDir` (main.go 629). -/
def shouldSkip (extraSkip : List String) (entry : Entry) : Bool :=
  entry.IsDir && (decide (entry.Name ∈ skipDirs) || decide (entry.Name ∈ extraSkip))

/-- The function `zip.FileInfoHeader`: a header carrying the name, size and
modification time of the entry.  It returns no error. -/
def FileInfoHeader (entry : Entry) : Except Err FileHeader :=
  .ok { Name := entry.Name, Method := 0, UncompressedSize := entry.Size,
        Modified := entry.ModTime }

/-- The call `io.Copy(dst, src)` for the opened remote file `src` at `path` and
a sink `dst` given by its `write` operation: the bytes `src` delivers are
written to the sink (the chunks are modelled as one read and one write); the
result is the number of bytes written and the first error, of the write or of
the read. -/
def ioCopy (write : Bytes → σ → Option Err × σ) (call : Bytes → Call) (path : String)
    (src : RemoteFile) (s : σ) : (Nat × Option Err) × σ × List Event :=
  match write src.Data s with
  | (some e, s1) => ((0, some e), s1, [⟨.Read path, src.ReadErr⟩, ⟨call src.Data, some e⟩])
  | (none, s1) =>
    ((src.Data.length, src.ReadErr), s1, [⟨.Read path, src.ReadErr⟩, ⟨call src.Data, none⟩])

/-- The loop `for _, entry := range entries` of `walkDir`, with the recursive
call passed in as `self`. -/
def walkEntries (W : World σ) (client : SftpClient) (extraSkip : List String)
    (self : String → String → σ → Option (Option Err × σ × List Event))
    (remotePath zipPrefix : String) :
    List Entry → σ → Option (Option Err × σ × List Event)
  | [], s => some (none, s, [])
  | entry :: rest, s =>
    -- Skip heavy/unnecessary directories
    if shouldSkip extraSkip entry then
      walkEntries W client extraSkip self remotePath zipPrefix rest s
    else
      let fullPath := remotePath ++ "/" ++ entry.Name
      let zipPath := zipPrefix ++ "/" ++ entry.Name
      if entry.IsDir then
        match W.ZipCreate (zipPath ++ "/") s with
        | (some err, s1) => some (some err, s1, [⟨.ZipCreate (zipPath ++ "/"), some err⟩])
        | (none, s1) =>
          match self fullPath zipPath s1 with
          | none => none
          | some (some err, s2, t) =>
            some (some err, s2, ⟨.ZipCreate (zipPath ++ "/"), none⟩ :: t)
          | some (none, s2, t) =>
            match walkEntries W client extraSkip self remotePath zipPrefix rest s2 with
            | none => none
            | some (r, s3, t3) => some (r, s3, ⟨.ZipCreate (zipPath ++ "/"), none⟩ :: (t ++ t3))
      else
        match FileInfoHeader entry with
        | .error err => some (some err, s, [])
        | .ok header0 =>
          let header := { header0 with Name := zipPath, Method := Deflate }
          match W.ZipCreateHeader header s with
          | (some err, s1) => some (some err, s1, [⟨.ZipCreateHeader header, some err⟩])
          | (none, s1) =>
            match W.Open client fullPath s1 with
            | (.error err, s2) =>
              some (some err, s2, [⟨.ZipCreateHeader header, none⟩, ⟨.Open fullPath, some err⟩])
            | (.ok file, s2) =>
              match ioCopy W.ZipWrite .ZipWrite fullPath file s2 with
              | (_, s3, t3) =>
                match W.CloseFile client fullPath s3 with
                | (cerr, s4) =>
                  match walkEntries W client extraSkip self remotePath zipPrefix rest s4 with
                  | none => none
                  | some (r, s5, t5) =>
                    some (r, s5, ⟨.ZipCreateHeader header, none⟩ :: ⟨.Open fullPath, none⟩ ::
                      (t3 ++ ⟨.CloseFile fullPath, cerr⟩ :: t5))

/-- The closure `walkDir` of `handleDownloadDir` (main.go 621-666). -/
def walkDir (W : World σ) (client : SftpClient) (extraSkip : List String) :
    Nat → String → String → σ → Option (Option Err × σ × List Event)
  | 0, _, _, _ => none
  | fuel + 1, remotePath, zipPrefix, s =>
    match W.ReadDir client remotePath s with
    | (.error err, s1) => some (some err, s1, [⟨.ReadDir remotePath, some err⟩])
    | (.ok entries, s1) =>
      match walkEntries W client extraSkip (walkDir W client extraSkip fuel)
          remotePath zipPrefix entries s1 with
      | none => none
      | some (r, s2, t) => some (r, s2, ⟨.ReadDir remotePath, none⟩ :: t)

/-- The function `handleDownloadDir` (main.go 583-671).  The archive goes to
the zip sink of the world; `zw.Close()` is deferred, so it runs last. -/
def handleDownloadDir (W : World σ) (srv : Server) (fuel : Nat) (r : Request) (s : σ) :
    Option (Response × σ × List Event) :=
  if r.Method ≠ "GET" then some (jsonError 405 "Method not allowed", s, [])
  else
    match srv.sftpClient with
    | none => some (jsonError 400 "Not connected", s, [])
    | some client =>
      let dirPath := r.query "path"
      if dirPath = "" then some (jsonError 400 "Path is required", s, [])
      else
        let dirName := Base dirPath
        let resp := Response.attachment ("attachment; filename=\"" ++ dirName ++ ".zip\"")
          "application/zip" none
        -- Get exclude list from query param
        let extraSkip := extraSkipOf (r.query "exclude")
        match walkDir W client extraSkip fuel dirPath dirName s with
        | none => none
        | some (some err, s1, t) =>
          match W.ZipClose s1 with
          | (cerr, s2) =>
            some (resp, s2, t ++ [⟨.Log ("Zip walk error: " ++ err), none⟩, ⟨.ZipClose, cerr⟩])
        | some (none, s1, t) =>
          match W.ZipClose s1 with
          | (cerr, s2) => some (resp, s2, t ++ [⟨.ZipClose, cerr⟩])

end Archiver

/-! ## Uploads and downloads -/

section Relay
variable {σ : Type}

/-- The loop `for _, p := range parts` of `handleUpload` (main.go 201-213),
creating the intermediate directories one by one; the error of `Mkdir` is
ignored. -/
def mkdirParts (W : World σ) (client : SftpClient) :
    List String → String → σ → σ × List Event
  | [], _, s => (s, [])
  | p :: parts, current, s =>
    if p = "" then mkdirParts W client parts "/" s
    else
      let current1 := if current = "" then p else current ++ "/" ++ p
      match W.Mkdir client current1 s with
      | (e, s1) =>
        match mkdirParts W client parts current1 s1 with
        | (s2, t) => (s2, ⟨.Mkdir current1, e⟩ :: t)

/-- The value of `remotePath` in `handleUpload` (main.go 193-217): the
`subpath` form field, its backslashes turned into slashes, joined to the
destination; the file name of the upload when there is no `subpath`. -/
def uploadPath (destPath subPath filename : String) : String :=
  if subPath ≠ "" then Join destPath (replaceAll subPath '\\' '/')
  else Join destPath filename

/-- The function `handleUpload` (main.go 160-236); `remoteFile.Close()` is
deferred. -/
def handleUpload (W : World σ) (srv : Server) (r : Request) (s : σ) :
    Response × σ × List Event :=
  if r.Method ≠ "POST" then (jsonError 405 "Method not allowed", s, [])
  else
    match srv.sftpClient with
    | none => (jsonError 400 "Not connected", s, [])
    | some client =>
      match r.Form with
      | .error err => (jsonError 400 ("Failed to parse form: " ++ err), s, [])
      | .ok form =>
        let destPath := if form.value "path" = "" then "." else form.value "path"
        match form.file with
        | none => (jsonError 400 ("Failed to get file: " ++ "http: no such file"), s, [])
        | some (filename, data) =>
          -- Support subfolder from "subpath" form field (for folder uploads)
          let subPath := form.value "subpath"
          let (s1, t1) :=
            if subPath ≠ "" then
              -- Create all intermediate directories one by one
              let dir := Join destPath (Dir (replaceAll subPath '\\' '/'))
              mkdirParts W client (split dir '/') "" s
            else (s, [])
          let remotePath := uploadPath destPath subPath filename
          match W.Create client remotePath s1 with
          | (some err, s2) =>
            (jsonError 500 ("Failed to create remote file: " ++ err), s2,
              t1 ++ [⟨.Create remotePath, some err⟩])
          | (none, s2) =>
            match W.Write client remotePath data s2 with
            | (res, s3) =>
              match W.CloseFile client remotePath s3 with
              | (cerr, s4) =>
                let t := t1 ++ [⟨.Create remotePath, none⟩, ⟨.Write remotePath data, errOf res⟩,
                  ⟨.CloseFile remotePath, cerr⟩]
                match res with
                | .error err => (jsonError 500 ("Failed to write file: " ++ err), s4, t)
                | .ok written => (jsonResponse 200 (.uploaded filename written), s4, t)

/-- The function `handleDownload` (main.go 344-384); `file.Close()` is deferred. -/
def handleDownload (W : World σ) (srv : Server) (r : Request) (s : σ) :
    Response × σ × List Event :=
  if r.Method ≠ "GET" then (jsonError 405 "Method not allowed", s, [])
  else
    match srv.sftpClient with
    | none => (jsonError 400 "Not connected", s, [])
    | some client =>
      let filePath := r.query "path"
      if filePath = "" then (jsonError 400 "Path is required", s, [])
      else
        match W.Open client filePath s with
        | (.error err, s1) =>
          (jsonError 500 ("Failed to open file: " ++ err), s1, [⟨.Open filePath, some err⟩])
        | (.ok file, s1) =>
          match file.Info with
          | .error err =>
            match W.CloseFile client filePath s1 with
            | (cerr, s2) =>
              (jsonError 500 ("Failed to stat file: " ++ err), s2,
                [⟨.Open filePath, none⟩, ⟨.Stat filePath, some err⟩, ⟨.CloseFile filePath, cerr⟩])
          | .ok stat =>
            let fileName := Base filePath
            match ioCopy W.RespWrite .RespWrite filePath file s1 with
            | (_, s2, t) =>
              match W.CloseFile client filePath s2 with
              | (cerr, s3) =>
                (.attachment ("attachment; filename=\"" ++ fileName ++ "\"")
                    "application/octet-stream" (some stat.Size), s3,
                  ⟨.Open filePath, none⟩ :: ⟨.Stat filePath, none⟩ ::
                    (t ++ [⟨.CloseFile filePath, cerr⟩]))

/-- The function `handleReadFile` (main.go 673-723); `file.Close()` is deferred. -/
def handleReadFile (W : World σ) (srv : Server) (r : Request) (s : σ) :
    Response × σ × List Event :=
  if r.Method ≠ "GET" then (jsonError 405 "Method not allowed", s, [])
  else
    match srv.sftpClient with
    | none => (jsonError 400 "Not connected", s, [])
    | some client =>
      let filePath := r.query "path"
      if filePath = "" then (jsonError 400 "Path is required", s, [])
      else
        match W.Open client filePath s with
        | (.error err, s1) =>
          (jsonError 500 ("Failed to open file: " ++ err), s1, [⟨.Open filePath, some err⟩])
        | (.ok file, s1) =>
          match W.CloseFile client filePath s1 with
          | (cerr, s2) =>
            match file.Info with
            | .error err =>
              (jsonError 500 ("Failed to stat file: " ++ err), s2,
                [⟨.Open filePath, none⟩, ⟨.Stat filePath, some err⟩, ⟨.CloseFile filePath, cerr⟩])
            | .ok stat =>
              -- Limit to 5MB for text editing
              if 5 * 1024 * 1024 < stat.Size then
                (jsonError 400 "File too large to edit (max 5MB)", s2,
                  [⟨.Open filePath, none⟩, ⟨.Stat filePath, none⟩, ⟨.CloseFile filePath, cerr⟩])
              else
                let t := [⟨.Open filePath, none⟩, ⟨.Stat filePath, none⟩,
                  ⟨.Read filePath, file.ReadErr⟩, ⟨.CloseFile filePath, cerr⟩]
                match file.ReadErr with
                | some err => (jsonError 500 ("Failed to read file: " ++ err), s2, t)
                | none => (jsonResponse 200 (.content file.Data stat.Size), s2, t)

/-- The function `handleWriteFile` (main.go 725-766); `file.Close()` is deferred. -/
def handleWriteFile (W : World σ) (srv : Server) (r : Request) (s : σ) :
    Response × σ × List Event :=
  if r.Method ≠ "POST" then (jsonError 405 "Method not allowed", s, [])
  else
    match srv.sftpClient with
    | none => (jsonError 400 "Not connected", s, [])
    | some client =>
      match r.Json with
      | none => (jsonError 400 "Invalid request", s, [])
      | some req =>
        let path := req.str "path"
        let data : Bytes := (req.str "content").toUTF8.toList
        match W.Create client path s with
        | (some err, s1) =>
          (jsonError 500 ("Failed to create file: " ++ err), s1, [⟨.Create path, some err⟩])
        | (none, s1) =>
          match W.Write client path data s1 with
          | (res, s2) =>
            match W.CloseFile client path s2 with
            | (cerr, s3) =>
              let t := [⟨.Create path, none⟩, ⟨.Write path data, errOf res⟩,
                ⟨.CloseFile path, cerr⟩]
              match res with
              | .error err => (jsonError 500 ("Failed to write file: " ++ err), s3, t)
              | .ok written => (jsonResponse 200 (.saved written), s3, t)

end Relay

/-! ## Routing -/

section Routing
variable {σ : Type}

/-- The paths registered in `main` (main.go 832-846). -/
inductive Route
  | connect | files | upload | delete | rename | mkdir | download | diskinfo | sysinfo
  | exists_ | downloaddir | readfile | writefile | exec | disconnect
  deriving DecidableEq, Repr

/-- The data-plane endpoints: every route but `/connect` and `/disconnect`. -/
def Route.isDataPlane : Route → Bool
  | .connect => false
  | .disconnect => false
  | _ => true

/-- The function `corsMiddleware` (main.go 40-52): an `OPTIONS` request is
answered with status 200 and never reaches the handler.  (The CORS headers it
sets on every response are not modelled.) -/
def corsMiddleware (next : Server → Request → σ → Option (Response × Server × σ × List Event))
    (srv : Server) (r : Request) (s : σ) : Option (Response × Server × σ × List Event) :=
  if r.Method = "OPTIONS" then some (.bare 200, srv, s, [])
  else next srv r s

/-- A handler that leaves the session store alone, as a handler on the store. -/
def keepStore (h : Server → Request → σ → Response × σ × List Event)
    (srv : Server) (r : Request) (s : σ) : Option (Response × Server × σ × List Event) :=
  match h srv r s with
  | (resp, s1, t) => some (resp, srv, s1, t)

/-- The same for a handler that takes fuel. -/
def keepStoreFuel (h : Server → Request → σ → Option (Response × σ × List Event))
    (srv : Server) (r : Request) (s : σ) : Option (Response × Server × σ × List Event) :=
  match h srv r s with
  | none => none
  | some (resp, s1, t) => some (resp, srv, s1, t)

/-- The handler registered for a route in `main`, behind `corsMiddleware`. -/
def serve (W : World σ) (fuel : Nat) :
    Route → Server → Request → σ → Option (Response × Server × σ × List Event)
  | .connect => corsMiddleware fun srv r s => some (handleConnect W srv r s)
  | .files => corsMiddleware (keepStore (handleFiles W))
  | .upload => corsMiddleware (keepStore (handleUpload W))
  | .delete => corsMiddleware (keepStoreFuel fun srv => handleDelete W srv fuel)
  | .rename => corsMiddleware (keepStore (handleRename W))
  | .mkdir => corsMiddleware (keepStore (handleMkdir W))
  | .download => corsMiddleware (keepStore (handleDownload W))
  | .diskinfo => corsMiddleware (keepStore (handleDiskInfo W))
  | .sysinfo => corsMiddleware (keepStore (handleSysInfo W))
  | .exists_ => corsMiddleware (keepStore (handleExists W))
  | .downloaddir => corsMiddleware (keepStoreFuel fun srv => handleDownloadDir W srv fuel)
  | .readfile => corsMiddleware (keepStore (handleReadFile W))
  | .writefile => corsMiddleware (keepStore (handleWriteFile W))
  | .exec => corsMiddleware (keepStore (handleExec W))
  | .disconnect => corsMiddleware fun srv r s => some (handleDisconnect W srv r s)

end Routing

/-! ## A concrete world: a remote directory tree and an in-memory archive -/

/-- A node of the remote file system: a file with its content, or a directory
with the names of its entries in listing order. -/
inductive Inode
  | file (data : Bytes)
  | dir (names : List String)
  deriving DecidableEq, Repr

/-- An entry of the archive: the header it was created with and the bytes
written to it. -/
structure ZipEntry where
  header : FileHeader
  data : Bytes
  deriving DecidableEq, Repr

/-- The state of the simulated environment.  `nodes` is the remote file
system, keyed by path as spelled; `deny` the calls that are refused, with
their error (permissions, network failures); `readFault` the files whose
reading breaks off after so many bytes; `exec` what a remote command prints
and how it ends; `archive` the entries of the zip writer; `body` the bytes of
the HTTP response body. -/
structure Sim where
  nodes : String → Option Inode
  deny : Call → Option Err
  readFault : String → Option (Nat × Err)
  exec : String → String × Option ExecError
  archive : List ZipEntry
  body : Bytes

/-- The `os.FileInfo` of a node under the name `name`. -/
def entryOf (name : String) : Inode → Entry
  | .file data => ⟨name, data.length, false, ""⟩
  | .dir _ => ⟨name, 0, true, ""⟩

/-- The listing of the directory `path` whose entries were created under
`names`: those that still exist. -/
def Sim.listing (s : Sim) (path : String) (names : List String) : List Entry :=
  names.filterMap fun n => (s.nodes (path ++ "/" ++ n)).map (entryOf n)

/-- The file system without the nodes at `paths`. -/
def Sim.without (s : Sim) (paths : List String) : Sim :=
  { s with nodes := fun q => if q ∈ paths then none else s.nodes q }

/-- The state with the archive replaced by `archive`. -/
def Sim.withArchive (s : Sim) (archive : List ZipEntry) : Sim :=
  { s with archive := archive }

/-- The file system with `node` at `path`. -/
def Sim.withNode (s : Sim) (path : String) (node : Inode) : Sim :=
  { s with nodes := fun q => if q = path then some node else s.nodes q }

/-- The path of the directory that holds `path`: `path` up to its last slash. -/
def parentOf (path : String) : String :=
  ⟨(dirPart path.data).dropLast⟩

/-- Entering a new node at `path`: it is added to the listing of its parent
directory.  A path without a slash has no parent in the model. -/
def Sim.link (s : Sim) (path : String) (node : Inode) : Option Err × Sim :=
  if '/' ∈ path.data then
    match s.nodes (parentOf path) with
    | some (.dir names) =>
      (none, (s.withNode (parentOf path)
        (.dir (if Base path ∈ names then names else names ++ [Base path]))).withNode path node)
    | _ => (some "file does not exist", s)
  else (none, s.withNode path node)

/-- The file system with the subtree at `oldPath` moved to `newPath`. -/
def Sim.moved (s : Sim) (oldPath newPath : String) : Sim :=
  let lookup (q : String) : Option Inode :=
    if (newPath ++ "/").data.isPrefixOf q.data then
      s.nodes (oldPath ++ String.mk (q.data.drop newPath.length))
    else if q = oldPath ∨ (oldPath ++ "/").data.isPrefixOf q.data then none
    else s.nodes q
  { s with nodes := lookup }

/-- An operation that is refused when `deny` says so. -/
def Sim.guarded {α : Type} (s : Sim) (c : Call) (refused : Err → α) (run : Unit → α × Sim) :
    α × Sim :=
  match s.deny c with
  | some e => (refused e, s)
  | none => run ()

/-- The simulated environment.  `Remove` takes a file or an empty directory,
`RemoveDirectory` an empty directory, as `pkg/sftp` has it. -/
def simWorld : World Sim where
  Dial addr user password s := s.guarded (.Dial addr user password) some fun _ => (none, s)
  NewClient conn s := s.guarded (.NewClient conn) some fun _ => (none, s)
  CloseSftp c s := s.guarded (.CloseSftp c) some fun _ => (none, s)
  CloseSsh c s := s.guarded (.CloseSsh c) some fun _ => (none, s)
  ReadDir _ path s := s.guarded (.ReadDir path) .error fun _ =>
    match s.nodes path with
    | some (.dir names) => (.ok (s.listing path names), s)
    | some (.file _) => (.error "not a directory", s)
    | none => (.error "file does not exist", s)
  Remove _ path s := s.guarded (.Remove path) some fun _ =>
    match s.nodes path with
    | some (.file _) => (none, s.without [path])
    | some (.dir names) =>
      if s.listing path names = [] then (none, s.without [path])
      else (some "directory not empty", s)
    | none => (some "file does not exist", s)
  RemoveDirectory _ path s := s.guarded (.RemoveDirectory path) some fun _ =>
    match s.nodes path with
    | some (.file _) => (some "not a directory", s)
    | some (.dir names) =>
      if s.listing path names = [] then (none, s.without [path])
      else (some "directory not empty", s)
    | none => (some "file does not exist", s)
  Stat _ path s := s.guarded (.Stat path) .error fun _ =>
    match s.nodes path with
    | some node => (.ok (entryOf (Base path) node), s)
    | none => (.error "file does not exist", s)
  Open _ path s := s.guarded (.Open path) .error fun _ =>
    match s.nodes path with
    | some (.file data) =>
      match s.readFault path with
      | some (n, e) => (.ok ⟨data.take n, some e, .ok (entryOf (Base path) (.file data))⟩, s)
      | none => (.ok ⟨data, none, .ok (entryOf (Base path) (.file data))⟩, s)
    | some (.dir _) => (.error "is a directory", s)
    | none => (.error "file does not exist", s)
  Create _ path s := s.guarded (.Create path) some fun _ =>
    match s.nodes path with
    | some (.dir _) => (some "is a directory", s)
    | _ => s.link path (.file [])
  Mkdir _ path s := s.guarded (.Mkdir path) some fun _ =>
    match s.nodes path with
    | some _ => (some "file exists", s)
    | none => s.link path (.dir [])
  Rename _ oldPath newPath s := s.guarded (.Rename oldPath newPath) some fun _ =>
    match s.nodes oldPath, s.nodes newPath with
    | some node, none =>
      (s.moved oldPath newPath).link newPath node
    | none, _ => (some "file does not exist", s)
    | some _, some _ => (some "file exists", s)
  Write _ path data s := s.guarded (.Write path data) .error fun _ =>
    match s.nodes path with
    | some (.file old) => (.ok data.length, s.withNode path (.file (old ++ data)))
    | _ => (.error "file does not exist", s)
  NewSession c s := s.guarded (.NewSession c) some fun _ => (none, s)
  Output _ cmd s := s.guarded (.Output cmd) .error fun _ =>
    match s.exec cmd with
    | (out, none) => (.ok out, s)
    | (_, some e) => (.error e.msg, s)
  CombinedOutput _ cmd s :=
    s.guarded (.CombinedOutput cmd) (fun e => ("", some (.other e))) fun _ => (s.exec cmd, s)
  ZipCreate name s := s.guarded (.ZipCreate name) some fun _ =>
    (none, s.withArchive (s.archive ++ [⟨⟨name, Deflate, 0, ""⟩, []⟩]))
  ZipCreateHeader h s := s.guarded (.ZipCreateHeader h) some fun _ =>
    (none, s.withArchive (s.archive ++ [⟨h, []⟩]))
  ZipWrite data s := s.guarded (.ZipWrite data) some fun _ =>
    match s.archive.getLast? with
    | some e => (none, s.withArchive (s.archive.dropLast ++ [⟨e.header, e.data ++ data⟩]))
    | none => (some "zip: no entry open", s)
  RespWrite data s := s.guarded (.RespWrite data) some fun _ =>
    (none, { s with body := s.body ++ data })
  CloseFile _ path s := s.guarded (.CloseFile path) some fun _ => (none, s)
  CloseSession c s := s.guarded (.CloseSession c) some fun _ => (none, s)
  ZipClose s := s.guarded .ZipClose some fun _ => (none, s)

/-- A finite forest of remote entries in listing order: the entries of one
directory, each file with its content and each directory with the forest of
its own entries. -/
inductive Forest
  | nil
  | file (name : String) (data : Bytes) (rest : Forest)
  | dir (name : String) (kids : Forest) (rest : Forest)
  deriving DecidableEq, Repr

/-- The names of the top-level entries, in listing order. -/
def Forest.names : Forest → List String
  | .nil => []
  | .file n _ rest => n :: rest.names
  | .dir n _ rest => n :: rest.names

/-- The listing of the top-level entries. -/
def Forest.entries : Forest → List Entry
  | .nil => []
  | .file n data rest => ⟨n, data.length, false, ""⟩ :: rest.entries
  | .dir n _ rest => ⟨n, 0, true, ""⟩ :: rest.entries

/-- The nesting depth of the forest. -/
def Forest.depth : Forest → Nat
  | .nil => 0
  | .file _ _ rest => rest.depth
  | .dir _ kids rest => max (kids.depth + 1) rest.depth

/-- The nodes of the forest when it is the content of the directory `path`:
each with its full path. -/
def Forest.table (path : String) : Forest → List (String × Inode)
  | .nil => []
  | .file n data rest => (path ++ "/" ++ n, .file data) :: rest.table path
  | .dir n kids rest =>
    (path ++ "/" ++ n, .dir kids.names) :: (kids.table (path ++ "/" ++ n) ++ rest.table path)

/-- The paths of the nodes of the forest below the directory `path`. -/
def Forest.paths (path : String) (f : Forest) : List String :=
  (f.table path).map Prod.fst

/-- The remote that holds the directory `path` with content `f` and nothing
else; no call is refused and no read fails; the archive and the response body
are empty. -/
def mount (path : String) (f : Forest) : Sim where
  nodes q := ((path, Inode.dir f.names) :: f.table path).lookup q
  deny _ := none
  readFault _ := none
  exec _ := ("", none)
  archive := []
  body := []

/-- The remote `nodes` holds the forest `f` as the content of the directory
`path`: every node of `f` is found at its path. -/
def Hosts (nodes : String → Option Inode) (path : String) (f : Forest) : Prop :=
  ∀ q i, (q, i) ∈ f.table path → nodes q = some i

/-- The removal calls of a successful walk over the forest, as the spec words
them: for each entry in listing order, a file is removed directly, a
directory after everything inside it. -/
def Forest.postorder (path : String) : Forest → List String
  | .nil => []
  | .file n _ rest => (path ++ "/" ++ n) :: rest.postorder path
  | .dir n kids rest =>
    kids.postorder (path ++ "/" ++ n) ++ (path ++ "/" ++ n) :: rest.postorder path

/-- The events of `removeDir`'s loop over the forest when nothing fails. -/
def Forest.removeTrace (path : String) : Forest → List Event
  | .nil => []
  | .file n _ rest => ⟨.Remove (path ++ "/" ++ n), none⟩ :: rest.removeTrace path
  | .dir n kids rest =>
    ⟨.ReadDir (path ++ "/" ++ n), none⟩ :: (kids.removeTrace (path ++ "/" ++ n) ++
      [⟨.RemoveDirectory (path ++ "/" ++ n), none⟩]) ++ rest.removeTrace path

/-- The archive entries a successful walk writes for the forest under the
archive path `zipPrefix`, following `walkDir`: a directory with a skipped name
is passed over with everything in it. -/
def Forest.archived (extraSkip : List String) (zipPrefix : String) : Forest → List ZipEntry
  | .nil => []
  | .file n data rest =>
    ⟨⟨zipPrefix ++ "/" ++ n, Deflate, data.length, ""⟩, data⟩ :: rest.archived extraSkip zipPrefix
  | .dir n kids rest =>
    if n ∈ skipDirs ∨ n ∈ extraSkip then rest.archived extraSkip zipPrefix
    else ⟨⟨zipPrefix ++ "/" ++ n ++ "/", Deflate, 0, ""⟩, []⟩ ::
      (kids.archived extraSkip (zipPrefix ++ "/" ++ n) ++ rest.archived extraSkip zipPrefix)

/-- The archive of the whole forest in depth-first pre-order, as the spec
words it: for each entry in listing order, a file entry with the bytes of the
file, or a directory marker followed by the entries of its content. -/
def Forest.preorder (zipPrefix : String) : Forest → List ZipEntry
  | .nil => []
  | .file n data rest =>
    ⟨⟨zipPrefix ++ "/" ++ n, Deflate, data.length, ""⟩, data⟩ :: rest.preorder zipPrefix
  | .dir n kids rest =>
    ⟨⟨zipPrefix ++ "/" ++ n ++ "/", Deflate, 0, ""⟩, []⟩ ::
      (kids.preorder (zipPrefix ++ "/" ++ n) ++ rest.preorder zipPrefix)

/-- The number of nodes (files and directories) of the forest. -/
def Forest.size : Forest → Nat
  | .nil => 0
  | .file _ _ rest => rest.size + 1
  | .dir _ kids rest => kids.size + rest.size + 1

/-- No directory of the forest has a name in `skip`. -/
def Forest.noneSkipped (skip : List String) : Forest → Prop
  | .nil => True
  | .file _ _ rest => rest.noneSkipped skip
  | .dir n kids rest => n ∉ skip ∧ kids.noneSkipped skip ∧ rest.noneSkipped skip

/-- Every entry of the forest in depth-first pre-order, each with a flag that
says whether it, or a directory above it (below the archived root), is a
directory with a name in `skip`; `above` is the flag inherited from the
directories above. -/
def Forest.tagged (skip : List String) (above : Bool) (zipPrefix : String) :
    Forest → List (ZipEntry × Bool)
  | .nil => []
  | .file n data rest =>
    (⟨⟨zipPrefix ++ "/" ++ n, Deflate, data.length, ""⟩, data⟩, above) ::
      rest.tagged skip above zipPrefix
  | .dir n kids rest =>
    (⟨⟨zipPrefix ++ "/" ++ n ++ "/", Deflate, 0, ""⟩, []⟩, above || decide (n ∈ skip)) ::
      (kids.tagged skip (above || decide (n ∈ skip)) (zipPrefix ++ "/" ++ n) ++
        rest.tagged skip above zipPrefix)

/-- The result of a `Stat` call says "directory": the call succeeded and
`IsDir()` is true. -/
def reportsDir : Except Err Entry → Bool
  | .ok st => st.IsDir
  | .error _ => false

/-- The shape of the events of a walk that returned `r`: when `r` is nil every
call succeeded; when `r` is an error, the failing call is the last call made,
its error is `r`, and every call before it succeeded. -/
def StopsAtFirstFailure (r : Option Err) (t : List Event) : Prop :=
  match r with
  | none => ∀ ev ∈ t, ev.err = none
  | some e => ∃ pre ev, t = pre ++ [ev] ∧ ev.err = some e ∧ ∀ x ∈ pre, x.err = none

/-- An example tree: `e.txt`, the directory `f` holding `g.txt`, then `h.txt`. -/
def lockedTree : Forest :=
  .file "e.txt" [1] (.dir "f" (.file "g.txt" [2] .nil) (.file "h.txt" [3] .nil))

/-- The remote holding `lockedTree` under `d`, on which `d/f/g.txt` may not be
removed. -/
def lockedRemote : Sim :=
  { mount "d" lockedTree with
    deny := fun call => if call = .Remove "d/f/g.txt" then some "permission denied" else none }

/-- The pair invariant of the session store: it holds no handle at all, or a
transport together with the file-transfer client built on that very
transport, which is the one dialled last. -/
def Paired (srv : Server) : Prop :=
  (srv.sshClient = none ∧ srv.sftpClient = none) ∨
    ∃ conn, srv.sshClient = some conn ∧ srv.sftpClient = some ⟨conn⟩ ∧ conn.id + 1 = srv.dials

/-- The states of the process reachable from the empty store: any sequence of
requests to any route, each served by the handler registered for it, in a
world that may also change by itself between requests. -/
inductive Reachable {σ : Type} (W : World σ) : Server → σ → Prop
  | start (s : σ) : Reachable W ⟨none, none, 0⟩ s
  | request (route : Route) (fuel : Nat) (r : Request) (srv : Server) (s : σ)
      (out : Response × Server × σ × List Event) :
      Reachable W srv s → serve W fuel route srv r s = some out →
      Reachable W out.2.1 out.2.2.1
  | drift (srv : Server) (s s1 : σ) : Reachable W srv s → Reachable W srv s1

/-- The method a data-plane handler insists on before it looks at the session
(`if r.Method != ... `), `none` for the handlers without such a check
(`handleDiskInfo`, `handleSysInfo`, `handleExists`). -/
def Route.method : Route → Option String
  | .files => some "GET"
  | .upload => some "POST"
  | .delete => some "DELETE"
  | .rename => some "POST"
  | .mkdir => some "POST"
  | .download => some "GET"
  | .downloaddir => some "GET"
  | .readfile => some "GET"
  | .writefile => some "POST"
  | .exec => some "POST"
  | .connect => some "POST"
  | .diskinfo => none
  | .sysinfo => none
  | .exists_ => none
  | .disconnect => none

/-- What a data-plane endpoint answers when there is no session: 200 to an
`OPTIONS` request (from the middleware), 405 to a request with a method other
than the one the handler insists on, 400 `Not connected` to every other
request. -/
def answerWithoutSession (route : Route) (r : Request) : Response :=
  if r.Method = "OPTIONS" then .bare 200
  else
    match route.method with
    | some m => if r.Method ≠ m then jsonError 405 "Method not allowed"
      else jsonError 400 "Not connected"
    | none => jsonError 400 "Not connected"

/-- The segment `..`. -/
def dotdotSeg : List Char := ['.', '.']

/-- Lexical resolution of a path given by its segments, as `path.Clean` is
documented: segments are taken from left to right onto a stack (top first);
an empty segment and `.` are dropped; `..` removes the segment before it,
and when there is none to remove it is dropped in a rooted path and kept in
a relative one; every other segment is kept. -/
def resolve (rooted : Bool) : List (List Char) → List (List Char) → List (List Char)
  | [], stack => stack
  | seg :: more, stack =>
    if seg = [] ∨ seg = ['.'] then resolve rooted more stack
    else if seg = dotdotSeg then
      match stack with
      | top :: below =>
        if top = dotdotSeg then resolve rooted more (seg :: stack)
        else resolve rooted more below
      | [] => if rooted then resolve rooted more [] else resolve rooted more [seg]
    else resolve rooted more (seg :: stack)

/-- The start of a written path: `/` when rooted, nothing otherwise. -/
def rootOf (rooted : Bool) : List Char :=
  if rooted then ['/'] else []

/-- The path with the segments `stack` (top first, so last segment first),
written backwards: the segments separated by `/`, after a leading `/` when
rooted. -/
def outOf (rooted : Bool) : List (List Char) → List Char
  | [] => rootOf rooted
  | seg :: below =>
    seg.reverse ++ (if below = [] then rootOf rooted else '/' :: outOf rooted below)

/-- The path with the segments `stack`, `.` when that is empty. -/
def pathOf (rooted : Bool) (stack : List (List Char)) : String :=
  if (outOf rooted stack).length = 0 then "." else ⟨(outOf rooted stack).reverse⟩

/-- The join of `a` and `b` starts with a slash. -/
def joinRooted (a b : String) : Bool :=
  decide ((a.data ++ b.data).head? = some '/')

/-- The segments of `a` followed by the segments of `b`. -/
def joinSegments (a b : String) : List (List Char) :=
  splitChars '/' a.data ++ splitChars '/' b.data

/-- An ordinary path segment: not empty, without a slash, neither `.` nor `..`. -/
def Ordinary (seg : List Char) : Prop :=
  seg ≠ [] ∧ '/' ∉ seg ∧ seg ≠ ['.'] ∧ seg ≠ dotdotSeg

/-- A stack of ordinary segments `ord` on top of `k` segments `..`. -/
def stackOf (ord : List (List Char)) (k : Nat) : List (List Char) :=
  ord ++ List.replicate k dotdotSeg

/-- The value of the variable `dotdot` of `path.Clean` when the output starts
with `k` segments `..`: the length of that start. -/
def dotdotAt (rooted : Bool) (k : Nat) : Nat :=
  (outOf rooted (List.replicate k dotdotSeg)).length

/-- The path a directory-create call is about. -/
def Call.mkdirPath : Call → Option String
  | .Mkdir p => some p
  | _ => none

/-- The path a file-create call is about. -/
def Call.createPath : Call → Option String
  | .Create p => some p
  | _ => none

/-- The value of `dir` in `handleUpload` (main.go 199): the directory part of
the `subpath` form field, its backslashes turned into slashes, joined to the
destination. -/
def uploadDir (destPath subPath : String) : String :=
  Join destPath (Dir (replaceAll subPath '\\' '/'))

/-- The values `current` takes at the `client.Mkdir(current)` calls of the loop
of `handleUpload` (main.go 201-213), in order. -/
def mkdirPaths : List String → String → List String
  | [], _ => []
  | p :: parts, current =>
    if p = "" then mkdirPaths parts "/"
    else
      (if current = "" then p else current ++ "/" ++ p) ::
        mkdirPaths parts (if current = "" then p else current ++ "/" ++ p)

/-- The successive ancestor prefixes of the path with the segments `stack`
(top first), from the shortest down to the path itself, as the spec words
them. -/
def ancestors (rooted : Bool) : List (List Char) → List String
  | [] => []
  | seg :: below => ancestors rooted below ++ [String.mk (outOf rooted (seg :: below)).reverse]

/-! # Theorems -/

/-! ## Facts about the simulated world -/

theorem guarded_allowed {α : Type} (s : Sim) (c : Call) (refused : Err → α)
    (run : Unit → α × Sim) (h : s.deny c = none) : s.guarded c refused run = run () := by
  simp [Sim.guarded, h]

theorem without_nil (s : Sim) : s.without [] = s := by
  cases s; simp [Sim.without]

theorem without_without (s : Sim) (a b : List String) :
    (s.without a).without b = s.without (a ++ b) := by
  cases s
  simp only [Sim.without, Sim.mk.injEq, and_true, true_and]
  funext q
  by_cases hb : q ∈ b <;> by_cases ha : q ∈ a <;> simp [ha, hb]

theorem without_congr (s : Sim) {a b : List String} (h : ∀ q, q ∈ a ↔ q ∈ b) :
    s.without a = s.without b := by
  cases s
  simp only [Sim.without, Sim.mk.injEq, and_true, true_and]
  funext q
  simp [h q]

theorem without_nodes_of_not_mem (s : Sim) {a : List String} {q : String} (h : q ∉ a) :
    (s.without a).nodes q = s.nodes q := by
  simp [Sim.without, h]

theorem without_nodes_of_mem (s : Sim) {a : List String} {q : String} (h : q ∈ a) :
    (s.without a).nodes q = none := by
  simp [Sim.without, h]

theorem names_path_mem (path : String) (f : Forest) :
    ∀ n ∈ f.names, path ++ "/" ++ n ∈ f.paths path := by
  induction f with
  | nil => simp [Forest.names]
  | file m d rest ih =>
    intro n hn
    simp only [Forest.names, List.mem_cons] at hn
    simp only [Forest.paths, Forest.table, List.map_cons, List.mem_cons]
    rcases hn with rfl | hn
    · exact Or.inl rfl
    · exact Or.inr (ih n hn)
  | dir m kids rest _ ih =>
    intro n hn
    simp only [Forest.names, List.mem_cons] at hn
    simp only [Forest.paths, Forest.table, List.map_cons, List.map_append, List.mem_cons,
      List.mem_append]
    rcases hn with rfl | hn
    · exact Or.inl rfl
    · exact Or.inr (Or.inr (ih n hn))

theorem hosts_rest_file {nodes : String → Option Inode} {path n : String} {d : Bytes}
    {rest : Forest} (h : Hosts nodes path (.file n d rest)) : Hosts nodes path rest :=
  fun q i hq => h q i (by simp [Forest.table, hq])

theorem hosts_rest_dir {nodes : String → Option Inode} {path n : String} {kids rest : Forest}
    (h : Hosts nodes path (.dir n kids rest)) : Hosts nodes path rest :=
  fun q i hq => h q i (by simp [Forest.table, hq])

theorem hosts_kids {nodes : String → Option Inode} {path n : String} {kids rest : Forest}
    (h : Hosts nodes path (.dir n kids rest)) : Hosts nodes (path ++ "/" ++ n) kids :=
  fun q i hq => h q i (by simp [Forest.table, hq])

theorem listing_of_hosts (s : Sim) (path : String) (f : Forest) (h : Hosts s.nodes path f) :
    s.listing path f.names = f.entries := by
  induction f with
  | nil => simp [Sim.listing, Forest.names, Forest.entries]
  | file n d rest ih =>
    have h1 : s.nodes (path ++ "/" ++ n) = some (.file d) := h _ _ (by simp [Forest.table])
    have := ih (hosts_rest_file h)
    simp only [Sim.listing] at this
    simp [Sim.listing, Forest.names, Forest.entries, h1, entryOf, this]
  | dir n kids rest _ ih =>
    have h1 : s.nodes (path ++ "/" ++ n) = some (.dir kids.names) := h _ _ (by simp [Forest.table])
    have := ih (hosts_rest_dir h)
    simp only [Sim.listing] at this
    simp [Sim.listing, Forest.names, Forest.entries, h1, entryOf, this]

theorem listing_gone (s : Sim) (path : String) (names : List String)
    (h : ∀ n ∈ names, s.nodes (path ++ "/" ++ n) = none) : s.listing path names = [] := by
  induction names with
  | nil => simp [Sim.listing]
  | cons n rest ih =>
    have h1 := h n (by simp)
    have := ih (fun m hm => h m (by simp [hm]))
    simp only [Sim.listing] at this
    simp [Sim.listing, h1, this]

theorem sim_readDir (c : SftpClient) (s : Sim) (path : String) (names : List String)
    (hd : s.deny (.ReadDir path) = none) (hn : s.nodes path = some (.dir names)) :
    simWorld.ReadDir c path s = (.ok (s.listing path names), s) := by
  simp [simWorld, guarded_allowed _ _ _ _ hd, hn]

theorem sim_remove_file (c : SftpClient) (s : Sim) (path : String) (d : Bytes)
    (hd : s.deny (.Remove path) = none) (hn : s.nodes path = some (.file d)) :
    simWorld.Remove c path s = (none, s.without [path]) := by
  simp [simWorld, guarded_allowed _ _ _ _ hd, hn]

theorem sim_removeDirectory (c : SftpClient) (s : Sim) (path : String) (names : List String)
    (hd : s.deny (.RemoveDirectory path) = none) (hn : s.nodes path = some (.dir names))
    (he : s.listing path names = []) :
    simWorld.RemoveDirectory c path s = (none, s.without [path]) := by
  simp [simWorld, guarded_allowed _ _ _ _ hd, hn, he]

theorem paths_file (path n : String) (d : Bytes) (rest : Forest) :
    (Forest.file n d rest).paths path = (path ++ "/" ++ n) :: rest.paths path := by
  simp [Forest.paths, Forest.table]

theorem paths_dir (path n : String) (kids rest : Forest) :
    (Forest.dir n kids rest).paths path =
      (path ++ "/" ++ n) :: (kids.paths (path ++ "/" ++ n) ++ rest.paths path) := by
  simp [Forest.paths, Forest.table]

theorem mem_paths_of_mem_table {path q : String} {i : Inode} {f : Forest}
    (h : (q, i) ∈ f.table path) : q ∈ f.paths path :=
  List.mem_map_of_mem Prod.fst h

/-- On a remote that holds the forest and refuses nothing, the loop of
`removeDir` succeeds, removes exactly the nodes of the forest and performs the
events `removeTrace`. -/
theorem removeEntries_sim (c : SftpClient) (f : Forest) :
    ∀ (fuel : Nat) (path : String) (s : Sim), f.depth ≤ fuel → (∀ call, s.deny call = none) →
      Hosts s.nodes path f → (f.paths path).Nodup →
      removeEntries simWorld c (removeDir simWorld c fuel) path f.entries s =
        some (none, s.without (f.paths path), f.removeTrace path) := by
  induction f with
  | nil =>
    intro fuel path s _ _ _ _
    simp [Forest.entries, removeEntries, Forest.paths, Forest.table, without_nil,
      Forest.removeTrace]
  | file n d rest ih =>
    intro fuel path s hfuel hdeny hh hnd
    have h1 : s.nodes (path ++ "/" ++ n) = some (.file d) := hh _ _ (by simp [Forest.table])
    rw [paths_file, List.nodup_cons] at hnd
    have hrest : Hosts (s.without [path ++ "/" ++ n]).nodes path rest := by
      intro q i hq
      have hne : q ≠ path ++ "/" ++ n := by
        rintro rfl
        exact hnd.1 (mem_paths_of_mem_table hq)
      rw [without_nodes_of_not_mem _ (by simpa using hne)]
      exact hosts_rest_file hh q i hq
    have := ih fuel path (s.without [path ++ "/" ++ n]) (by simpa [Forest.depth] using hfuel)
      (by intro call; simpa [Sim.without] using hdeny call) hrest hnd.2
    simp only [Forest.entries, removeEntries, Bool.false_eq_true, if_false,
      sim_remove_file c s _ d (hdeny _) h1, this, without_without, Forest.removeTrace,
      paths_file, List.singleton_append]
  | dir n kids rest ihk ihr =>
    intro fuel path s hfuel hdeny hh hnd
    have h1 : s.nodes (path ++ "/" ++ n) = some (.dir kids.names) :=
      hh _ _ (by simp [Forest.table])
    rw [paths_dir] at hnd
    simp only [List.nodup_cons, List.mem_append, not_or, List.nodup_append] at hnd
    obtain ⟨⟨hself1, hself2⟩, hndk, hndr, hdisj⟩ := hnd
    obtain ⟨hfk, hfr⟩ := max_le_iff.mp hfuel
    obtain ⟨fuel1, rfl⟩ : ∃ k, fuel = k + 1 := ⟨fuel - 1, by omega⟩
    have hk := ihk fuel1 (path ++ "/" ++ n) s (by omega) hdeny (hosts_kids hh) hndk
    -- the directory is still there, and empty, once its content is gone
    have h2 : (s.without (kids.paths (path ++ "/" ++ n))).nodes (path ++ "/" ++ n) =
        some (.dir kids.names) := by
      rw [without_nodes_of_not_mem _ hself1]; exact h1
    have h3 : (s.without (kids.paths (path ++ "/" ++ n))).listing (path ++ "/" ++ n) kids.names
        = [] :=
      listing_gone _ _ _ fun m hm => without_nodes_of_mem _ (names_path_mem _ _ m hm)
    have hrest : Hosts (s.without (kids.paths (path ++ "/" ++ n) ++ [path ++ "/" ++ n])).nodes
        path rest := by
      intro q i hq
      have hq1 : q ∈ rest.paths path := mem_paths_of_mem_table hq
      have hne : q ∉ kids.paths (path ++ "/" ++ n) ++ [path ++ "/" ++ n] := by
        simp only [List.mem_append, List.mem_singleton, not_or]
        exact ⟨fun hk => hdisj hk hq1, fun he => hself2 (he ▸ hq1)⟩
      rw [without_nodes_of_not_mem _ hne]
      exact hosts_rest_dir hh q i hq
    have hr := ihr (fuel1 + 1) path
      (s.without (kids.paths (path ++ "/" ++ n) ++ [path ++ "/" ++ n])) (by omega)
      (by intro call; simpa [Sim.without] using hdeny call) hrest hndr
    have hdeny2 : ∀ call, (s.without (kids.paths (path ++ "/" ++ n))).deny call = none := by
      intro call; simpa [Sim.without] using hdeny call
    have hdir : removeDir simWorld c (fuel1 + 1) (path ++ "/" ++ n) s =
        some (none, s.without (kids.paths (path ++ "/" ++ n) ++ [path ++ "/" ++ n]),
          ⟨.ReadDir (path ++ "/" ++ n), none⟩ :: (kids.removeTrace (path ++ "/" ++ n) ++
            [⟨.RemoveDirectory (path ++ "/" ++ n), none⟩])) := by
      simp only [removeDir, sim_readDir c s _ _ (hdeny _) h1,
        listing_of_hosts s _ kids (hosts_kids hh), hk,
        sim_removeDirectory c _ _ _ (hdeny2 _) h2 h3, without_without]
    simp only [Forest.entries, removeEntries, if_true, hdir, hr, without_without,
      Forest.removeTrace]
    simp only [Option.some.injEq, Prod.mk.injEq, true_and]
    refine ⟨without_congr s fun q => ?_, by simp⟩
    simp only [paths_dir, List.mem_append, List.mem_cons, List.mem_singleton]
    tauto

theorem lookup_of_mem_nodup {β : Type} (l : List (String × β)) (q : String) (i : β)
    (hnd : (l.map Prod.fst).Nodup) (h : (q, i) ∈ l) : l.lookup q = some i := by
  induction l with
  | nil => simp at h
  | cons x rest ih =>
    obtain ⟨k, v⟩ := x
    simp only [List.map_cons, List.nodup_cons] at hnd
    simp only [List.mem_cons, Prod.mk.injEq] at h
    rcases h with ⟨rfl, rfl⟩ | h
    · simp [List.lookup]
    · have hne : q ≠ k := by
        rintro rfl
        exact hnd.1 (List.mem_map_of_mem Prod.fst h)
      have hb : (q == k) = false := by simpa using hne
      simp [List.lookup, hb, ih hnd.2 h]

theorem mount_root (path : String) (f : Forest) :
    (mount path f).nodes path = some (.dir f.names) := by
  simp [mount, List.lookup]

theorem mount_hosts (path : String) (f : Forest) (hnd : (path :: f.paths path).Nodup) :
    Hosts (mount path f).nodes path f := by
  intro q i hq
  have hmem : (q, i) ∈ (path, Inode.dir f.names) :: f.table path := by simp [hq]
  exact lookup_of_mem_nodup _ q i (by simpa [Forest.paths] using hnd) hmem

theorem removeTrace_removed (path : String) (f : Forest) :
    (f.removeTrace path).filterMap (fun ev => ev.call.removed) = f.postorder path := by
  induction f generalizing path with
  | nil => simp [Forest.removeTrace, Forest.postorder]
  | file n d rest ih =>
    simp only [Forest.removeTrace, Forest.postorder, List.filterMap_cons, ih]
    rfl
  | dir n kids rest ihk ihr =>
    simp only [Forest.removeTrace, Forest.postorder, List.filterMap_cons, List.cons_append,
      List.filterMap_append, List.filterMap_nil, ihk, ihr]
    simp [Call.removed]

theorem removeTrace_ok (path : String) (f : Forest) : ∀ ev ∈ f.removeTrace path, ev.err = none := by
  induction f generalizing path with
  | nil => simp [Forest.removeTrace]
  | file n d rest ih =>
    intro ev hev
    simp only [Forest.removeTrace, List.mem_cons] at hev
    rcases hev with rfl | hev
    · rfl
    · exact ih path ev hev
  | dir n kids rest ihk ihr =>
    intro ev hev
    simp only [Forest.removeTrace, List.mem_cons, List.mem_append, List.cons_append,
      List.not_mem_nil, or_false] at hev
    rcases hev with rfl | (hev | rfl) | hev
    · rfl
    · exact ihk _ ev hev
    · rfl
    · exact ihr path ev hev

/-- On the remote holding exactly the forest `f` under `path`, `removeDir`
succeeds with enough fuel and performs the listing of `path`, the events of
the forest and the removal of `path`. -/
theorem removeDir_mount (c : SftpClient) (path : String) (f : Forest) (fuel : Nat)
    (hnd : (path :: f.paths path).Nodup) (hfuel : f.depth < fuel) :
    removeDir simWorld c fuel path (mount path f) =
      some (none, (mount path f).without (f.paths path ++ [path]),
        ⟨.ReadDir path, none⟩ :: (f.removeTrace path ++ [⟨.RemoveDirectory path, none⟩])) := by
  obtain ⟨fuel1, rfl⟩ : ∃ k, fuel = k + 1 := ⟨fuel - 1, by omega⟩
  have hdeny : ∀ call, (mount path f).deny call = none := fun _ => rfl
  have hh := mount_hosts path f hnd
  rw [List.nodup_cons] at hnd
  have hloop := removeEntries_sim c f fuel1 path (mount path f) (by omega) hdeny hh hnd.2
  have hdeny2 : ∀ call, ((mount path f).without (f.paths path)).deny call = none := fun _ => rfl
  have h2 : ((mount path f).without (f.paths path)).nodes path = some (.dir f.names) := by
    rw [without_nodes_of_not_mem _ hnd.1]; exact mount_root path f
  have h3 : ((mount path f).without (f.paths path)).listing path f.names = [] :=
    listing_gone _ _ _ fun m hm => without_nodes_of_mem _ (names_path_mem _ _ m hm)
  simp only [removeDir, sim_readDir c _ _ _ (hdeny _) (mount_root path f),
    listing_of_hosts _ _ f hh, hloop, sim_removeDirectory c _ _ _ (hdeny2 _) h2 h3,
    without_without]

theorem sim_remove_nonempty (c : SftpClient) (s : Sim) (path : String) (names : List String)
    (hd : s.deny (.Remove path) = none) (hn : s.nodes path = some (.dir names))
    (he : s.listing path names ≠ []) :
    simWorld.Remove c path s = (some "directory not empty", s) := by
  simp [simWorld, guarded_allowed _ _ _ _ hd, hn, he]

theorem sim_stat (c : SftpClient) (s : Sim) (path : String) (node : Inode)
    (hd : s.deny (.Stat path) = none) (hn : s.nodes path = some node) :
    simWorld.Stat c path s = (.ok (entryOf (Base path) node), s) := by
  simp [simWorld, guarded_allowed _ _ _ _ hd, hn]

theorem entries_ne_nil {f : Forest} (h : f ≠ .nil) : f.entries ≠ [] := by
  cases f <;> simp_all [Forest.entries]

/-- C1. On a remote holding the finite directory tree `f` under `path` (its
nodes at pairwise distinct paths, nothing refused), `removeDir` returns
without error for every fuel above the depth of the tree, every call of the
walk succeeds, and its removal calls are, in order, the post-order of the
tree (each entry in listing order, the content of a directory before the
directory) followed by `path` itself.  When the directory is not empty,
`handleDelete` reaches this walk after the direct `Remove` fails and `Stat`
reports a directory, and answers `deleted`. -/
theorem handleDelete_removes_postorder (srv : Server) (c : SftpClient) (r : Request)
    (path : String) (f : Forest) (fuel : Nat)
    (hc : srv.sftpClient = some c) (hm : r.Method = "DELETE") (hq : r.query "path" = path)
    (hp : path ≠ "") (hnd : (path :: f.paths path).Nodup) (hfuel : f.depth < fuel) :
    ∃ s t, removeDir simWorld c fuel path (mount path f) = some (none, s, t) ∧
      (∀ ev ∈ t, ev.err = none) ∧
      t.filterMap (fun ev => ev.call.removed) = f.postorder path ++ [path] ∧
      (f ≠ .nil → ∃ e, handleDelete simWorld srv fuel r (mount path f) =
        some (jsonResponse 200 (.status "deleted"), s,
          ⟨.Remove path, some e⟩ :: ⟨.Stat path, none⟩ :: t)) := by
  have hrun := removeDir_mount c path f fuel hnd hfuel
  refine ⟨_, _, hrun, ?_, ?_, ?_⟩
  · intro ev hev
    simp only [List.mem_cons, List.mem_append, List.not_mem_nil, or_false] at hev
    rcases hev with rfl | hev | rfl
    · rfl
    · exact removeTrace_ok path f ev hev
    · rfl
  · simp only [List.filterMap_cons, List.filterMap_append, removeTrace_removed,
      List.filterMap_nil]
    simp [Call.removed]
  · intro hne
    have hdeny : ∀ call, (mount path f).deny call = none := fun _ => rfl
    have hl : (mount path f).listing path f.names ≠ [] := by
      rw [listing_of_hosts _ _ f (mount_hosts path f hnd)]; exact entries_ne_nil hne
    refine ⟨"directory not empty", ?_⟩
    simp only [handleDelete, hm, hc, hq, hp, ne_eq, not_true_eq_false, if_false,
      sim_remove_nonempty c _ _ _ (hdeny _) (mount_root path f) hl,
      sim_stat c _ _ _ (hdeny _) (mount_root path f), entryOf, if_true, hrun]

/-- The claim's example: `d` lists `e.txt`, then the empty directory `f`. -/
theorem handleDelete_removes_postorder_witness :
    ∃ s t, removeDir simWorld ⟨⟨0⟩⟩ 2 "d" (mount "d" (.file "e.txt" [1, 2] (.dir "f" .nil .nil))) =
        some (none, s, t) ∧
      (∀ ev ∈ t, ev.err = none) ∧
      t.filterMap (fun ev => ev.call.removed) = ["d/e.txt", "d/f", "d"] ∧
      ∃ e, handleDelete simWorld ⟨some ⟨0⟩, some ⟨⟨0⟩⟩, 1⟩ 2
          ⟨"DELETE", [("path", "d")], none, .error ""⟩
          (mount "d" (.file "e.txt" [1, 2] (.dir "f" .nil .nil))) =
        some (jsonResponse 200 (.status "deleted"), s,
          ⟨.Remove "d", some e⟩ :: ⟨.Stat "d", none⟩ :: t) := by
  obtain ⟨s, t, h1, h2, h3, h4⟩ := handleDelete_removes_postorder ⟨some ⟨0⟩, some ⟨⟨0⟩⟩, 1⟩ ⟨⟨0⟩⟩
    ⟨"DELETE", [("path", "d")], none, .error ""⟩ "d" (.file "e.txt" [1, 2] (.dir "f" .nil .nil)) 2
    rfl rfl (by decide) (by decide) (by decide) (by decide)
  exact ⟨s, t, h1, h2, h3.trans (by decide), h4 (by simp)⟩

theorem withArchive_same (s : Sim) : s.withArchive s.archive = s := by
  cases s; rfl

theorem sim_zipCreate (s : Sim) (name : String) (hd : s.deny (.ZipCreate name) = none) :
    simWorld.ZipCreate name s =
      (none, s.withArchive (s.archive ++ [⟨⟨name, Deflate, 0, ""⟩, []⟩])) := by
  simp [simWorld, guarded_allowed _ _ _ _ hd]

theorem sim_zipCreateHeader (s : Sim) (h : FileHeader) (hd : s.deny (.ZipCreateHeader h) = none) :
    simWorld.ZipCreateHeader h s = (none, s.withArchive (s.archive ++ [⟨h, []⟩])) := by
  simp [simWorld, guarded_allowed _ _ _ _ hd]

theorem sim_zipWrite (s : Sim) (a : List ZipEntry) (h : FileHeader) (data : Bytes)
    (hd : s.deny (.ZipWrite data) = none) :
    simWorld.ZipWrite data (s.withArchive (a ++ [⟨h, []⟩])) =
      (none, s.withArchive (a ++ [⟨h, data⟩])) := by
  have hd2 : (s.withArchive (a ++ [⟨h, []⟩])).deny (.ZipWrite data) = none := hd
  simp only [simWorld]
  rw [guarded_allowed _ _ _ _ hd2]
  simp [Sim.withArchive]

theorem sim_open (c : SftpClient) (s : Sim) (path : String) (data : Bytes)
    (hd : s.deny (.Open path) = none) (hn : s.nodes path = some (.file data))
    (hr : s.readFault path = none) :
    simWorld.Open c path s =
      (.ok ⟨data, none, .ok (entryOf (Base path) (.file data))⟩, s) := by
  simp [simWorld, guarded_allowed _ _ _ _ hd, hn, hr]

theorem sim_closeFile (c : SftpClient) (s : Sim) (path : String)
    (hd : s.deny (.CloseFile path) = none) : simWorld.CloseFile c path s = (none, s) := by
  simp [simWorld, guarded_allowed _ _ _ _ hd]

/-- On a remote that holds the forest, refuses nothing and reads every file
in full, the loop of `walkDir` succeeds and appends `archived` to the
archive. -/
theorem walkEntries_sim (c : SftpClient) (extraSkip : List String) (f : Forest) :
    ∀ (fuel : Nat) (path zipPrefix : String) (s : Sim), f.depth ≤ fuel →
      (∀ call, s.deny call = none) → (∀ q, s.readFault q = none) → Hosts s.nodes path f →
      ∃ t, walkEntries simWorld c extraSkip (walkDir simWorld c extraSkip fuel) path zipPrefix
          f.entries s =
        some (none, s.withArchive (s.archive ++ f.archived extraSkip zipPrefix), t) := by
  induction f with
  | nil =>
    intro fuel path zipPrefix s _ _ _ _
    exact ⟨[], by simp [Forest.entries, walkEntries, Forest.archived, withArchive_same]⟩
  | file n d rest ih =>
    intro fuel path zipPrefix s hfuel hdeny hfault hh
    have h1 : ∀ a, (s.withArchive a).nodes (path ++ "/" ++ n) = some (.file d) :=
      fun _ => hh _ _ (by simp [Forest.table])
    have hdeny1 : ∀ a call, (s.withArchive a).deny call = none := fun _ => hdeny
    have hfault1 : ∀ a q, (s.withArchive a).readFault q = none := fun _ => hfault
    obtain ⟨t, ht⟩ := ih fuel path zipPrefix
      (s.withArchive (s.archive ++ [⟨⟨zipPrefix ++ "/" ++ n, Deflate, d.length, ""⟩, d⟩]))
      (by simpa [Forest.depth] using hfuel) hdeny hfault (hosts_rest_file hh)
    simp only [Forest.entries, walkEntries, shouldSkip, Bool.false_and, Bool.false_eq_true,
      if_false, FileInfoHeader, sim_zipCreateHeader s _ (hdeny _),
      sim_open c (s.withArchive _) _ d (hdeny1 _ _) (h1 _) (hfault1 _ _), ioCopy,
      sim_zipWrite s _ _ d (hdeny _),
      sim_closeFile c (s.withArchive _) _ (hdeny1 _ _), ht, Forest.archived]
    simp [Sim.withArchive]
  | dir n kids rest ihk ihr =>
    intro fuel path zipPrefix s hfuel hdeny hfault hh
    obtain ⟨_, hfr⟩ := max_le_iff.mp hfuel
    by_cases hs : n ∈ skipDirs ∨ n ∈ extraSkip
    · obtain ⟨t, ht⟩ := ihr fuel path zipPrefix s hfr hdeny hfault (hosts_rest_dir hh)
      refine ⟨t, ?_⟩
      have hs2 : (decide (n ∈ skipDirs) || decide (n ∈ extraSkip)) = true := by simpa using hs
      simp only [Forest.entries, walkEntries, shouldSkip, Bool.true_and, hs2, if_true, ht,
        Forest.archived, hs]
    · have hs2 : (decide (n ∈ skipDirs) || decide (n ∈ extraSkip)) = false := by simpa using hs
      obtain ⟨hfk, _⟩ := max_le_iff.mp hfuel
      obtain ⟨fuel1, rfl⟩ : ∃ k, fuel = k + 1 := ⟨fuel - 1, by omega⟩
      have h1 : ∀ a, (s.withArchive a).nodes (path ++ "/" ++ n) = some (.dir kids.names) :=
        fun _ => hh _ _ (by simp [Forest.table])
      have hdeny1 : ∀ a call, (s.withArchive a).deny call = none := fun _ => hdeny
      obtain ⟨tk, htk⟩ := ihk fuel1 (path ++ "/" ++ n) (zipPrefix ++ "/" ++ n)
        (s.withArchive (s.archive ++ [⟨⟨zipPrefix ++ "/" ++ n ++ "/", Deflate, 0, ""⟩, []⟩]))
        (by omega) hdeny hfault (hosts_kids hh)
      have hdir : walkDir simWorld c extraSkip (fuel1 + 1) (path ++ "/" ++ n)
          (zipPrefix ++ "/" ++ n)
          (s.withArchive (s.archive ++ [⟨⟨zipPrefix ++ "/" ++ n ++ "/", Deflate, 0, ""⟩, []⟩])) =
          some (none, s.withArchive (s.archive ++
            ⟨⟨zipPrefix ++ "/" ++ n ++ "/", Deflate, 0, ""⟩, []⟩ ::
              kids.archived extraSkip (zipPrefix ++ "/" ++ n)),
            ⟨.ReadDir (path ++ "/" ++ n), none⟩ :: tk) := by
        have hl := listing_of_hosts
          (s.withArchive (s.archive ++ [⟨⟨zipPrefix ++ "/" ++ n ++ "/", Deflate, 0, ""⟩, []⟩]))
          _ kids (hosts_kids hh)
        simp only [walkDir, sim_readDir c (s.withArchive _) _ _ (hdeny1 _ _) (h1 _), hl, htk]
        simp [Sim.withArchive]
      obtain ⟨tr, htr⟩ := ihr (fuel1 + 1) path zipPrefix
        (s.withArchive (s.archive ++ ⟨⟨zipPrefix ++ "/" ++ n ++ "/", Deflate, 0, ""⟩, []⟩ ::
          kids.archived extraSkip (zipPrefix ++ "/" ++ n)))
        hfr hdeny hfault (hosts_rest_dir hh)
      simp only [Forest.entries, walkEntries, shouldSkip, Bool.true_and, hs2,
        Bool.false_eq_true, if_false, if_true, sim_zipCreate s _ (hdeny _), hdir, htr,
        Forest.archived, hs]
      simp [Sim.withArchive]

theorem sim_zipClose (s : Sim) (hd : s.deny .ZipClose = none) :
    simWorld.ZipClose s = (none, s) := by
  simp [simWorld, guarded_allowed _ _ _ _ hd]

/-- On the remote holding exactly the forest `f` under `path`, `walkDir`
succeeds with enough fuel and leaves `archived` in the archive. -/
theorem walkDir_mount (c : SftpClient) (extraSkip : List String) (path zipPrefix : String)
    (f : Forest) (fuel : Nat) (hnd : (path :: f.paths path).Nodup) (hfuel : f.depth < fuel) :
    ∃ t, walkDir simWorld c extraSkip fuel path zipPrefix (mount path f) =
      some (none, (mount path f).withArchive (f.archived extraSkip zipPrefix), t) := by
  obtain ⟨fuel1, rfl⟩ : ∃ k, fuel = k + 1 := ⟨fuel - 1, by omega⟩
  have hdeny : ∀ call, (mount path f).deny call = none := fun _ => rfl
  have hh := mount_hosts path f hnd
  obtain ⟨t, ht⟩ := walkEntries_sim c extraSkip f fuel1 path zipPrefix (mount path f) (by omega)
    hdeny (fun _ => rfl) hh
  refine ⟨⟨.ReadDir path, none⟩ :: t, ?_⟩
  simp only [walkDir, sim_readDir c _ _ _ (hdeny _) (mount_root path f),
    listing_of_hosts _ _ f hh, ht]
  simp [mount]

/-- What `handleDownloadDir` does on the remote holding exactly `f` under
`path`: the walk succeeds, and the archive is `archived`. -/
theorem handleDownloadDir_mount (srv : Server) (c : SftpClient) (r : Request) (path : String)
    (f : Forest) (fuel : Nat) (hc : srv.sftpClient = some c) (hm : r.Method = "GET")
    (hq : r.query "path" = path) (hp : path ≠ "") (hnd : (path :: f.paths path).Nodup)
    (hfuel : f.depth < fuel) :
    ∃ t, walkDir simWorld c (extraSkipOf (r.query "exclude")) fuel path (Base path)
          (mount path f) =
        some (none, (mount path f).withArchive
          (f.archived (extraSkipOf (r.query "exclude")) (Base path)), t) ∧
      handleDownloadDir simWorld srv fuel r (mount path f) =
        some (.attachment ("attachment; filename=\"" ++ Base path ++ ".zip\"") "application/zip"
            none,
          (mount path f).withArchive (f.archived (extraSkipOf (r.query "exclude")) (Base path)),
          t ++ [⟨.ZipClose, none⟩]) := by
  obtain ⟨t, ht⟩ := walkDir_mount c (extraSkipOf (r.query "exclude")) path (Base path) f fuel
    hnd hfuel
  refine ⟨t, ht, ?_⟩
  have hz : ∀ a, ((mount path f).withArchive a).deny .ZipClose = none := fun _ => rfl
  simp only [handleDownloadDir, hm, hc, hq, hp, ne_eq, not_true_eq_false, if_false, ht,
    sim_zipClose _ (hz _)]

theorem archived_eq_preorder (extraSkip : List String) (f : Forest)
    (h : f.noneSkipped (skipDirs ++ extraSkip)) (zipPrefix : String) :
    f.archived extraSkip zipPrefix = f.preorder zipPrefix := by
  induction f generalizing zipPrefix with
  | nil => rfl
  | file n d rest ih => simp [Forest.archived, Forest.preorder, ih h]
  | dir n kids rest ihk ihr =>
    obtain ⟨h1, h2, h3⟩ := h
    have h1 : ¬ (n ∈ skipDirs ∨ n ∈ extraSkip) := by simpa using h1
    simp [Forest.archived, Forest.preorder, h1, ihk h2, ihr h3]

theorem preorder_length (f : Forest) (zipPrefix : String) :
    (f.preorder zipPrefix).length = f.size := by
  induction f generalizing zipPrefix with
  | nil => rfl
  | file n d rest ih => simp [Forest.preorder, Forest.size, ih]
  | dir n kids rest ihk ihr => simp [Forest.preorder, Forest.size, ihk, ihr]

theorem tagged_above (skip : List String) (f : Forest) (zipPrefix : String) :
    (f.tagged skip true zipPrefix).filter (fun e => !e.2) = [] := by
  induction f generalizing zipPrefix with
  | nil => rfl
  | file n d rest ih => simp [Forest.tagged, ih]
  | dir n kids rest ihk ihr => simp [Forest.tagged, ihk, ihr]

theorem archived_eq_tagged (extraSkip : List String) (f : Forest) (zipPrefix : String) :
    f.archived extraSkip zipPrefix =
      ((f.tagged (skipDirs ++ extraSkip) false zipPrefix).filter (fun e => !e.2)).map
        Prod.fst := by
  induction f generalizing zipPrefix with
  | nil => rfl
  | file n d rest ih => simp [Forest.archived, Forest.tagged, ih]
  | dir n kids rest ihk ihr =>
    by_cases hs : n ∈ skipDirs ∨ n ∈ extraSkip
    · have hs2 : decide (n ∈ skipDirs ++ extraSkip) = true := by simpa using hs
      simp [Forest.archived, Forest.tagged, hs, hs2, tagged_above, ihr]
    · have hs2 : decide (n ∈ skipDirs ++ extraSkip) = false := by simpa using hs
      simp [Forest.archived, Forest.tagged, hs, hs2, ihk, ihr]

/-- C2. On a remote holding the finite tree `f` under `path` (nodes at
pairwise distinct paths, no call refused, no read fault) in which no directory
has a skipped name, `walkDir` returns without error for every fuel above the
depth and `handleDownloadDir` leaves in the archive exactly the pre-order of
the tree: one marker per directory, written before the entries of its content,
one entry per file carrying the bytes of the file, in listing order; the
number of entries is the number of nodes. -/
theorem handleDownloadDir_archives_tree (srv : Server) (c : SftpClient) (r : Request)
    (path : String) (f : Forest) (fuel : Nat) (hc : srv.sftpClient = some c)
    (hm : r.Method = "GET") (hq : r.query "path" = path) (hp : path ≠ "")
    (hnd : (path :: f.paths path).Nodup) (hfuel : f.depth < fuel)
    (hskip : f.noneSkipped (skipDirs ++ extraSkipOf (r.query "exclude"))) :
    ∃ s t, walkDir simWorld c (extraSkipOf (r.query "exclude")) fuel path (Base path)
          (mount path f) = some (none, s, t) ∧
      handleDownloadDir simWorld srv fuel r (mount path f) =
        some (.attachment ("attachment; filename=\"" ++ Base path ++ ".zip\"") "application/zip"
          none, s, t ++ [⟨.ZipClose, none⟩]) ∧
      s.archive = f.preorder (Base path) ∧ s.archive.length = f.size := by
  obtain ⟨t, h1, h2⟩ := handleDownloadDir_mount srv c r path f fuel hc hm hq hp hnd hfuel
  refine ⟨_, t, h1, h2, ?_, ?_⟩
  · exact archived_eq_preorder _ f hskip _
  · rw [← preorder_length f (Base path)]
    exact congrArg List.length (archived_eq_preorder _ f hskip _)

/-- The claim's example: directory `a` holding `b.txt`, then the empty
directory `c`. -/
theorem handleDownloadDir_archives_tree_witness :
    ∃ s t, walkDir simWorld ⟨⟨0⟩⟩ [] 2 "/srv/root" "root"
          (mount "/srv/root" (.dir "a" (.file "b.txt" [7, 8, 9] .nil) (.dir "c" .nil .nil))) =
        some (none, s, t) ∧
      handleDownloadDir simWorld ⟨some ⟨0⟩, some ⟨⟨0⟩⟩, 1⟩ 2
          ⟨"GET", [("path", "/srv/root")], none, .error ""⟩
          (mount "/srv/root" (.dir "a" (.file "b.txt" [7, 8, 9] .nil) (.dir "c" .nil .nil))) =
        some (.attachment "attachment; filename=\"root.zip\"" "application/zip" none, s,
          t ++ [⟨.ZipClose, none⟩]) ∧
      s.archive = [⟨⟨"root/a/", Deflate, 0, ""⟩, []⟩, ⟨⟨"root/a/b.txt", Deflate, 3, ""⟩, [7, 8, 9]⟩,
        ⟨⟨"root/c/", Deflate, 0, ""⟩, []⟩] ∧
      s.archive.length = 3 := by
  obtain ⟨s, t, h1, h2, h3, h4⟩ := handleDownloadDir_archives_tree ⟨some ⟨0⟩, some ⟨⟨0⟩⟩, 1⟩ ⟨⟨0⟩⟩
    ⟨"GET", [("path", "/srv/root")], none, .error ""⟩ "/srv/root"
    (.dir "a" (.file "b.txt" [7, 8, 9] .nil) (.dir "c" .nil .nil)) 2
    rfl rfl (by decide) (by decide) (by decide) (by decide)
    ⟨by decide, trivial, by decide, trivial, trivial⟩
  exact ⟨s, t, h1, h2, h3.trans (by decide), h4⟩

/-- C3. In `walkDir` an entry is passed over exactly when it is a directory
whose name is in `skipDirs` or in the set parsed from `exclude`; a file is
never passed over.  On a remote holding the finite tree `f` under `path`, the
archive `handleDownloadDir` produces consists, in order, of exactly those
entries of the tree for which neither the entry nor a directory above it
(below the archived root) is a directory with such a name. -/
theorem handleDownloadDir_skips_exactly (srv : Server) (c : SftpClient) (r : Request)
    (path : String) (f : Forest) (fuel : Nat) (hc : srv.sftpClient = some c)
    (hm : r.Method = "GET") (hq : r.query "path" = path) (hp : path ≠ "")
    (hnd : (path :: f.paths path).Nodup) (hfuel : f.depth < fuel) :
    (∀ e : Entry, shouldSkip (extraSkipOf (r.query "exclude")) e = true ↔
      (e.IsDir = true ∧ (e.Name ∈ skipDirs ∨ e.Name ∈ extraSkipOf (r.query "exclude")))) ∧
    ∃ s t, handleDownloadDir simWorld srv fuel r (mount path f) =
        some (.attachment ("attachment; filename=\"" ++ Base path ++ ".zip\"") "application/zip"
          none, s, t) ∧
      s.archive = ((f.tagged (skipDirs ++ extraSkipOf (r.query "exclude")) false
        (Base path)).filter (fun e => !e.2)).map Prod.fst := by
  refine ⟨fun e => by simp [shouldSkip], ?_⟩
  obtain ⟨t, _, h2⟩ := handleDownloadDir_mount srv c r path f fuel hc hm hq hp hnd hfuel
  exact ⟨_, _, h2, archived_eq_tagged _ f _⟩

/-- An archive request with `exclude= a , c`: the directories `a`, `c` and
`dist` go with their content, the file named `vendor` stays. -/
theorem handleDownloadDir_skips_exactly_witness :
    (∀ e : Entry, shouldSkip ["a", "c"] e = true ↔
      (e.IsDir = true ∧ (e.Name ∈ skipDirs ∨ e.Name ∈ ["a", "c"]))) ∧
    ∃ s t, handleDownloadDir simWorld ⟨some ⟨0⟩, some ⟨⟨0⟩⟩, 1⟩ 2
          ⟨"GET", [("path", "/srv/root"), ("exclude", " a , c")], none, .error ""⟩
          (mount "/srv/root" (.dir "a" (.file "b.txt" [7, 8, 9] .nil) (.dir "c" .nil
            (.dir "dist" (.file "x" [1] .nil) (.file "vendor" [2] .nil))))) =
        some (.attachment "attachment; filename=\"root.zip\"" "application/zip" none, s, t) ∧
      s.archive = [⟨⟨"root/vendor", Deflate, 1, ""⟩, [2]⟩] := by
  obtain ⟨h0, s, t, h1, h2⟩ := handleDownloadDir_skips_exactly ⟨some ⟨0⟩, some ⟨⟨0⟩⟩, 1⟩ ⟨⟨0⟩⟩
    ⟨"GET", [("path", "/srv/root"), ("exclude", " a , c")], none, .error ""⟩ "/srv/root"
    (.dir "a" (.file "b.txt" [7, 8, 9] .nil) (.dir "c" .nil
      (.dir "dist" (.file "x" [1] .nil) (.file "vendor" [2] .nil)))) 2
    rfl rfl (by decide) (by decide) (by decide) (by decide)
  exact ⟨h0, s, t, h1, h2.trans (by decide)⟩

/-- C4 (the code departs from the claim). The directory `/srv/root` lists
`x.bin` and then `y.txt`; reading `x.bin` breaks off after one byte with
`connection lost`.  `walkDir` discards the result of `io.Copy`: it returns
nil, leaves `x.bin` truncated in the archive and goes on to write `y.txt`
after it. -/
theorem walkDir_ignores_copy_failure :
    (walkDir simWorld ⟨⟨0⟩⟩ [] 1 "/srv/root" "root"
        { mount "/srv/root" (.file "x.bin" [1, 2, 3] (.file "y.txt" [4] .nil)) with
          readFault := fun q => if q = "/srv/root/x.bin" then some (1, "connection lost")
            else none }).map (fun out => (out.1, out.2.1.archive, out.2.2)) =
      some (none,
        [⟨⟨"root/x.bin", Deflate, 3, ""⟩, [1]⟩, ⟨⟨"root/y.txt", Deflate, 1, ""⟩, [4]⟩],
        [⟨.ReadDir "/srv/root", none⟩,
         ⟨.ZipCreateHeader ⟨"root/x.bin", Deflate, 3, ""⟩, none⟩,
         ⟨.Open "/srv/root/x.bin", none⟩,
         ⟨.Read "/srv/root/x.bin", some "connection lost"⟩,
         ⟨.ZipWrite [1], none⟩,
         ⟨.CloseFile "/srv/root/x.bin", none⟩,
         ⟨.ZipCreateHeader ⟨"root/y.txt", Deflate, 1, ""⟩, none⟩,
         ⟨.Open "/srv/root/y.txt", none⟩,
         ⟨.Read "/srv/root/y.txt", none⟩,
         ⟨.ZipWrite [4], none⟩,
         ⟨.CloseFile "/srv/root/y.txt", none⟩]) := by
  decide

/-- C5. In `handleDelete`, when the direct `Remove` fails and `Stat` either
fails or reports something that is not a directory, the handler performs these
two calls and nothing else (no listing, no further removal, whatever the
fuel), and answers 500 with the error of the `Remove` call. -/
theorem handleDelete_surfaces_remove_error {σ : Type} (W : World σ) (srv : Server)
    (c : SftpClient) (fuel : Nat) (r : Request) (s s1 : σ) (err : Err)
    (hc : srv.sftpClient = some c) (hm : r.Method = "DELETE") (hp : r.query "path" ≠ "")
    (hrm : W.Remove c (r.query "path") s = (some err, s1))
    (hst : reportsDir (W.Stat c (r.query "path") s1).1 = false) :
    handleDelete W srv fuel r s =
      some (jsonError 500 ("Failed to delete: " ++ err), (W.Stat c (r.query "path") s1).2,
        [⟨.Remove (r.query "path"), some err⟩,
         ⟨.Stat (r.query "path"), errOf (W.Stat c (r.query "path") s1).1⟩]) := by
  simp only [handleDelete, hm, hc, hp, ne_eq, not_true_eq_false, if_false, hrm]
  rcases hstat : W.Stat c (r.query "path") s1 with ⟨res, s2⟩
  cases res with
  | error e => simp [errOf]
  | ok st =>
    have : st.IsDir = false := by simpa [hstat, reportsDir] using hst
    simp [this, errOf]

/-- A plain file that may not be removed: `Remove` is refused, `Stat` reports a
file. -/
theorem handleDelete_surfaces_remove_error_witness :
    handleDelete simWorld ⟨some ⟨0⟩, some ⟨⟨0⟩⟩, 1⟩ 0
        ⟨"DELETE", [("path", "/srv/a.txt")], none, .error ""⟩
        { mount "/srv" (.file "a.txt" [1] .nil) with
          deny := fun call => if call = .Remove "/srv/a.txt" then some "permission denied"
            else none } =
      some (jsonError 500 ("Failed to delete: " ++ "permission denied"),
        (simWorld.Stat ⟨⟨0⟩⟩ "/srv/a.txt"
          { mount "/srv" (.file "a.txt" [1] .nil) with
            deny := fun call => if call = .Remove "/srv/a.txt" then some "permission denied"
              else none }).2,
        [⟨.Remove "/srv/a.txt", some "permission denied"⟩,
         ⟨.Stat "/srv/a.txt", errOf (simWorld.Stat ⟨⟨0⟩⟩ "/srv/a.txt"
          { mount "/srv" (.file "a.txt" [1] .nil) with
            deny := fun call => if call = .Remove "/srv/a.txt" then some "permission denied"
              else none }).1⟩]) :=
  handleDelete_surfaces_remove_error simWorld ⟨some ⟨0⟩, some ⟨⟨0⟩⟩, 1⟩ ⟨⟨0⟩⟩ 0
    ⟨"DELETE", [("path", "/srv/a.txt")], none, .error ""⟩ _ _ "permission denied"
    rfl rfl (by decide) rfl rfl

/-! ## The remover in an arbitrary world -/

theorem stops_cons {r : Option Err} {t : List Event} (ev : Event) (hev : ev.err = none)
    (h : StopsAtFirstFailure r t) : StopsAtFirstFailure r (ev :: t) := by
  cases r with
  | none =>
    intro x hx
    rcases List.mem_cons.mp hx with rfl | hx
    · exact hev
    · exact h x hx
  | some e =>
    obtain ⟨pre, last, rfl, hl, hpre⟩ := h
    refine ⟨ev :: pre, last, rfl, hl, ?_⟩
    intro x hx
    rcases List.mem_cons.mp hx with rfl | hx
    · exact hev
    · exact hpre x hx

theorem stops_append {r : Option Err} {t1 t2 : List Event} (h1 : StopsAtFirstFailure none t1)
    (h2 : StopsAtFirstFailure r t2) : StopsAtFirstFailure r (t1 ++ t2) := by
  induction t1 with
  | nil => simpa using h2
  | cons ev rest ih =>
    have hev : ev.err = none := h1 ev (by simp)
    exact stops_cons ev hev (ih fun x hx => h1 x (by simp [hx]))

theorem stops_single (call : Call) (r : Option Err) : StopsAtFirstFailure r [⟨call, r⟩] := by
  cases r with
  | none => intro x hx; simp at hx; rw [hx]
  | some e => exact ⟨[], ⟨call, some e⟩, rfl, rfl, by simp⟩

/-- The loop of `removeDir` stops at the first failure if the recursive call
does. -/
theorem removeEntries_stops {σ : Type} (W : World σ) (c : SftpClient)
    (self : String → σ → Option (Option Err × σ × List Event))
    (hself : ∀ p s r s1 t, self p s = some (r, s1, t) → StopsAtFirstFailure r t)
    (dirPath : String) (entries : List Entry) :
    ∀ (s : σ) (r : Option Err) (s1 : σ) (t : List Event),
      removeEntries W c self dirPath entries s = some (r, s1, t) → StopsAtFirstFailure r t := by
  induction entries with
  | nil =>
    intro s r s1 t h
    simp only [removeEntries, Option.some.injEq, Prod.mk.injEq] at h
    obtain ⟨rfl, _, rfl⟩ := h
    intro x hx; simp at hx
  | cons entry rest ih =>
    intro s r s1 t h
    simp only [removeEntries] at h
    split at h
    · -- a directory
      split at h
      · simp at h
      · rename_i err s2 t2 hrec
        simp only [Option.some.injEq, Prod.mk.injEq] at h
        obtain ⟨rfl, _, rfl⟩ := h
        exact hself _ _ _ _ _ hrec
      · rename_i s2 t2 hrec
        split at h
        · simp at h
        · rename_i r3 s3 t3 hrest
          simp only [Option.some.injEq, Prod.mk.injEq] at h
          obtain ⟨rfl, _, rfl⟩ := h
          exact stops_append (hself _ _ _ _ _ hrec) (ih _ _ _ _ hrest)
    · -- a file
      split at h
      · rename_i err s2 hrm
        simp only [Option.some.injEq, Prod.mk.injEq] at h
        obtain ⟨rfl, _, rfl⟩ := h
        exact stops_single _ _
      · rename_i s2 hrm
        split at h
        · simp at h
        · rename_i r3 s3 t3 hrest
          simp only [Option.some.injEq, Prod.mk.injEq] at h
          obtain ⟨rfl, _, rfl⟩ := h
          exact stops_cons _ rfl (ih _ _ _ _ hrest)

/-- In every world, `removeDir` stops at the first failing listing or removal
and returns its error. -/
theorem removeDir_stops {σ : Type} (W : World σ) (c : SftpClient) (fuel : Nat) :
    ∀ (dirPath : String) (s : σ) (r : Option Err) (s1 : σ) (t : List Event),
      removeDir W c fuel dirPath s = some (r, s1, t) → StopsAtFirstFailure r t := by
  induction fuel with
  | zero => intro dirPath s r s1 t h; simp [removeDir] at h
  | succ fuel ih =>
    intro dirPath s r s1 t h
    simp only [removeDir] at h
    split at h
    · rename_i err s2 hls
      simp only [Option.some.injEq, Prod.mk.injEq] at h
      obtain ⟨rfl, _, rfl⟩ := h
      exact stops_single _ _
    · rename_i entries s2 hls
      split at h
      · simp at h
      · rename_i err s3 t3 hloop
        simp only [Option.some.injEq, Prod.mk.injEq] at h
        obtain ⟨rfl, _, rfl⟩ := h
        exact stops_cons _ rfl (removeEntries_stops W c _ ih _ _ _ _ _ _ hloop)
      · rename_i s3 t3 hloop
        simp only [Option.some.injEq, Prod.mk.injEq] at h
        obtain ⟨rfl, _, rfl⟩ := h
        exact stops_cons _ rfl
          (stops_append (removeEntries_stops W c _ ih _ _ _ _ _ _ hloop) (stops_single _ _))

/-- When `removeDir` returns nil, its last call is the removal of the directory
it was called on, and that removal succeeded. -/
theorem removeDir_last {σ : Type} (W : World σ) (c : SftpClient) (fuel : Nat) (dirPath : String)
    (s s1 : σ) (t : List Event) (h : removeDir W c fuel dirPath s = some (none, s1, t)) :
    t.getLast? = some ⟨.RemoveDirectory dirPath, none⟩ := by
  cases fuel with
  | zero => simp [removeDir] at h
  | succ fuel =>
    simp only [removeDir] at h
    split at h
    · simp at h
    · split at h
      · simp at h
      · simp at h
      · rename_i s3 t3 hloop
        simp only [Option.some.injEq, Prod.mk.injEq] at h
        obtain ⟨h1, _, rfl⟩ := h
        rw [h1, ← List.cons_append]
        exact List.getLast?_concat _

theorem guarded_refused {α : Type} (s : Sim) (c : Call) (refused : Err → α)
    (run : Unit → α × Sim) (e : Err) (h : s.deny c = some e) :
    s.guarded c refused run = (refused e, s) := by
  simp [Sim.guarded, h]

theorem sim_readDir_refused (c : SftpClient) (s : Sim) (path : String) (e : Err)
    (hd : s.deny (.ReadDir path) = some e) : simWorld.ReadDir c path s = (.error e, s) := by
  simp [simWorld, guarded_refused _ _ _ _ e hd]

theorem sim_remove_refused (c : SftpClient) (s : Sim) (path : String) (e : Err)
    (hd : s.deny (.Remove path) = some e) : simWorld.Remove c path s = (some e, s) := by
  simp [simWorld, guarded_refused _ _ _ _ e hd]

theorem sim_removeDirectory_refused (c : SftpClient) (s : Sim) (path : String) (e : Err)
    (hd : s.deny (.RemoveDirectory path) = some e) :
    simWorld.RemoveDirectory c path s = (some e, s) := by
  simp [simWorld, guarded_refused _ _ _ _ e hd]

/-- On a remote that holds the forest, whatever calls it refuses, the loop of
`removeDir` returns once the fuel reaches the depth of the forest; when it
returns nil the nodes of the forest are gone. -/
theorem removeEntries_returns (c : SftpClient) (f : Forest) :
    ∀ (fuel : Nat) (path : String) (s : Sim), f.depth ≤ fuel →
      Hosts s.nodes path f → (f.paths path).Nodup →
      ∃ r s1 t, removeEntries simWorld c (removeDir simWorld c fuel) path f.entries s =
          some (r, s1, t) ∧ (r = none → s1 = s.without (f.paths path)) := by
  induction f with
  | nil =>
    intro fuel path s _ _ _
    exact ⟨none, s, [], by simp [Forest.entries, removeEntries],
      fun _ => by simp [Forest.paths, Forest.table, without_nil]⟩
  | file n d rest ih =>
    intro fuel path s hfuel hh hnd
    have h1 : s.nodes (path ++ "/" ++ n) = some (.file d) := hh _ _ (by simp [Forest.table])
    rw [paths_file, List.nodup_cons] at hnd
    cases hd : s.deny (.Remove (path ++ "/" ++ n)) with
    | some e =>
      simp only [Forest.entries, removeEntries, Bool.false_eq_true, if_false,
        sim_remove_refused c s _ e hd]
      exact ⟨_, _, _, rfl, fun h => by simp at h⟩
    | none =>
      have hrest : Hosts (s.without [path ++ "/" ++ n]).nodes path rest := by
        intro q i hq
        have hne : q ≠ path ++ "/" ++ n := by
          rintro rfl
          exact hnd.1 (mem_paths_of_mem_table hq)
        rw [without_nodes_of_not_mem _ (by simpa using hne)]
        exact hosts_rest_file hh q i hq
      obtain ⟨r, s1, t, hrun, hstate⟩ := ih fuel path (s.without [path ++ "/" ++ n])
        (by simpa [Forest.depth] using hfuel) hrest hnd.2
      simp only [Forest.entries, removeEntries, Bool.false_eq_true, if_false,
        sim_remove_file c s _ d hd h1, hrun]
      refine ⟨_, _, _, rfl, fun h => ?_⟩
      rw [hstate h, without_without, paths_file, List.singleton_append]
  | dir n kids rest ihk ihr =>
    intro fuel path s hfuel hh hnd
    have h1 : s.nodes (path ++ "/" ++ n) = some (.dir kids.names) :=
      hh _ _ (by simp [Forest.table])
    rw [paths_dir] at hnd
    simp only [List.nodup_cons, List.mem_append, not_or, List.nodup_append] at hnd
    obtain ⟨⟨hself1, hself2⟩, hndk, hndr, hdisj⟩ := hnd
    obtain ⟨hfk, hfr⟩ := max_le_iff.mp hfuel
    obtain ⟨fuel1, rfl⟩ : ∃ k, fuel = k + 1 := ⟨fuel - 1, by omega⟩
    -- the recursive call on the directory returns
    have hdir : ∃ r s1 t, removeDir simWorld c (fuel1 + 1) (path ++ "/" ++ n) s =
        some (r, s1, t) ∧
        (r = none → s1 = s.without (kids.paths (path ++ "/" ++ n) ++ [path ++ "/" ++ n])) := by
      cases hd : s.deny (.ReadDir (path ++ "/" ++ n)) with
      | some e =>
        simp only [removeDir, sim_readDir_refused c s _ e hd]
        exact ⟨_, _, _, rfl, fun h => by simp at h⟩
      | none =>
        obtain ⟨rk, sk, tk, hk, hks⟩ := ihk fuel1 (path ++ "/" ++ n) s (by omega)
          (hosts_kids hh) hndk
        cases rk with
        | some e =>
          simp only [removeDir, sim_readDir c s _ _ hd h1,
            listing_of_hosts s _ kids (hosts_kids hh), hk]
          exact ⟨_, _, _, rfl, fun h => by simp at h⟩
        | none =>
          have hsk := hks rfl
          subst hsk
          have h2 : (s.without (kids.paths (path ++ "/" ++ n))).nodes (path ++ "/" ++ n) =
              some (.dir kids.names) := by
            rw [without_nodes_of_not_mem _ hself1]; exact h1
          have h3 : (s.without (kids.paths (path ++ "/" ++ n))).listing (path ++ "/" ++ n)
              kids.names = [] :=
            listing_gone _ _ _ fun m hm => without_nodes_of_mem _ (names_path_mem _ _ m hm)
          cases hd2 : (s.without (kids.paths (path ++ "/" ++ n))).deny
              (.RemoveDirectory (path ++ "/" ++ n)) with
          | some e =>
            simp only [removeDir, sim_readDir c s _ _ hd h1,
              listing_of_hosts s _ kids (hosts_kids hh), hk,
              sim_removeDirectory_refused c _ _ e hd2]
            exact ⟨_, _, _, rfl, fun h => by simp at h⟩
          | none =>
            simp only [removeDir, sim_readDir c s _ _ hd h1,
              listing_of_hosts s _ kids (hosts_kids hh), hk,
              sim_removeDirectory c _ _ _ hd2 h2 h3, without_without]
            exact ⟨_, _, _, rfl, fun _ => rfl⟩
    obtain ⟨rd, sd, td, hrd, hsd⟩ := hdir
    cases rd with
    | some e =>
      refine ⟨some e, sd, td, ?_, fun h => by simp at h⟩
      simp only [Forest.entries, removeEntries, if_true, hrd]
    | none =>
      have := hsd rfl
      subst this
      have hrest : Hosts (s.without (kids.paths (path ++ "/" ++ n) ++ [path ++ "/" ++ n])).nodes
          path rest := by
        intro q i hq
        have hq1 : q ∈ rest.paths path := mem_paths_of_mem_table hq
        have hne : q ∉ kids.paths (path ++ "/" ++ n) ++ [path ++ "/" ++ n] := by
          simp only [List.mem_append, List.mem_singleton, not_or]
          exact ⟨fun hk => hdisj hk hq1, fun he => hself2 (he ▸ hq1)⟩
        rw [without_nodes_of_not_mem _ hne]
        exact hosts_rest_dir hh q i hq
      obtain ⟨r, s1, t, hrun, hstate⟩ := ihr (fuel1 + 1) path _ hfr hrest hndr
      simp only [Forest.entries, removeEntries, if_true, hrd, hrun]
      refine ⟨_, _, _, rfl, fun h => ?_⟩
      rw [hstate h, without_without]
      refine without_congr s fun q => ?_
      simp only [paths_dir, List.mem_append, List.mem_cons, List.mem_singleton]
      tauto

theorem stops_failure_last {r : Option Err} {w pre post : List Event} {ev : Event} {e : Err}
    (h : StopsAtFirstFailure r w) (hw : w = pre ++ ev :: post) (hev : ev.err = some e) :
    post = [] ∧ (∀ x ∈ pre, x.err = none) ∧ r = some e := by
  cases r with
  | none =>
    have := h ev (by simp [hw])
    rw [hev] at this
    simp at this
  | some e1 =>
    obtain ⟨pre1, last, hw1, hl, hpre⟩ := h
    rw [hw] at hw1
    -- the failing event cannot lie in `pre1`, whose events all succeeded
    rcases List.append_eq_append_iff.mp hw1 with ⟨a, ha, hb⟩ | ⟨a, ha, hb⟩
    · cases a with
      | nil =>
        simp only [List.nil_append, List.cons.injEq] at hb
        obtain ⟨rfl, rfl⟩ := hb
        refine ⟨rfl, ?_, ?_⟩
        · rw [List.append_nil] at ha; rw [← ha]; exact hpre
        · rw [← hl, hev]
      | cons x rest =>
        simp only [List.cons_append, List.cons.injEq] at hb
        have := hpre ev (by rw [ha, hb.1]; simp)
        rw [hev] at this
        simp at this
    · cases a with
      | nil =>
        simp only [List.nil_append, List.cons.injEq] at hb
        obtain ⟨rfl, rfl⟩ := hb
        refine ⟨rfl, ?_, ?_⟩
        · rw [List.append_nil] at ha; rw [ha]; exact hpre
        · rw [← hl, hev]
      | cons x rest =>
        have h2 := congrArg List.length hb
        simp only [List.length_cons, List.length_nil, List.length_append] at h2
        omega

theorem sim_remove_failed_state (c : SftpClient) (s s1 : Sim) (path : String) (e : Err)
    (h : simWorld.Remove c path s = (some e, s1)) : s1 = s := by
  simp only [simWorld, Sim.guarded] at h
  split at h
  · exact (congrArg Prod.snd h).symm
  · split at h
    · simp at h
    · split at h
      · simp at h
      · exact (congrArg Prod.snd h).symm
    · exact (congrArg Prod.snd h).symm

theorem sim_stat_state (c : SftpClient) (s : Sim) (path : String) :
    (simWorld.Stat c path s).2 = s := by
  simp only [simWorld, Sim.guarded]
  split
  · rfl
  · split <;> rfl

/-- On a remote that holds the forest under `path`, whatever calls it refuses,
`removeDir` returns once the fuel exceeds the depth of the forest. -/
theorem removeDir_returns (c : SftpClient) (path : String) (f : Forest) (fuel : Nat) (s : Sim)
    (hnd : (path :: f.paths path).Nodup) (hfuel : f.depth < fuel)
    (hroot : s.nodes path = some (.dir f.names)) (hh : Hosts s.nodes path f) :
    ∃ out, removeDir simWorld c fuel path s = some out := by
  obtain ⟨fuel1, rfl⟩ : ∃ k, fuel = k + 1 := ⟨fuel - 1, by omega⟩
  rw [List.nodup_cons] at hnd
  cases hd : s.deny (.ReadDir path) with
  | some e =>
    simp only [removeDir, sim_readDir_refused c s _ e hd]
    exact ⟨_, rfl⟩
  | none =>
    obtain ⟨rl, sl, tl, hl, _⟩ := removeEntries_returns c f fuel1 path s (by omega) hh hnd.2
    simp only [removeDir, sim_readDir c s _ _ hd hroot, listing_of_hosts s _ f hh, hl]
    cases rl <;> exact ⟨_, rfl⟩

/-- C6. With a current session: (1) in every world, whenever `handleDelete`
returns, it answers `deleted` only if its single call was a successful direct
`Remove`, or the walk it entered made only successful calls, ending with the
successful removal of the target directory; and if any call of the walk
failed, that call is the last one made (nothing is listed or removed after
it), every call before it succeeded, and the answer is 500 with that error.
(2) On every remote holding a finite tree, whichever calls it refuses,
`handleDelete` does return once the fuel exceeds the depth of the tree. -/
theorem handleDelete_deleted_only_if (srv : Server) (c : SftpClient) (r : Request)
    (hc : srv.sftpClient = some c) :
    (∀ (σ : Type) (W : World σ) (fuel : Nat) (s : σ) (resp : Response) (t : List Event),
      (handleDelete W srv fuel r s).map (fun out => (out.1, out.2.2)) = some (resp, t) →
      (resp = jsonResponse 200 (.status "deleted") →
        t = [⟨.Remove (r.query "path"), none⟩] ∨
        ∃ e w, t = ⟨.Remove (r.query "path"), some e⟩ :: ⟨.Stat (r.query "path"), none⟩ :: w ∧
          (∀ ev ∈ w, ev.err = none) ∧
          w.getLast? = some ⟨.RemoveDirectory (r.query "path"), none⟩) ∧
      (∀ e w pre ev post rmErr,
        t = ⟨.Remove (r.query "path"), some e⟩ :: ⟨.Stat (r.query "path"), none⟩ :: w →
        w = pre ++ ev :: post → ev.err = some rmErr →
        post = [] ∧ (∀ x ∈ pre, x.err = none) ∧
          resp = jsonError 500 ("Failed to delete directory: " ++ rmErr))) ∧
    (∀ (f : Forest) (deny : Call → Option Err) (fuel : Nat),
      (r.query "path" :: f.paths (r.query "path")).Nodup → f.depth < fuel →
      ∃ out, handleDelete simWorld srv fuel r { mount (r.query "path") f with deny := deny } =
        some out) := by
  constructor
  · intro σ W fuel s resp t hrun
    simp only [handleDelete, hc] at hrun
    split at hrun
    · simp only [Option.map_some', Option.some.injEq, Prod.mk.injEq] at hrun
      obtain ⟨rfl, rfl⟩ := hrun
      exact ⟨fun h => by simp [jsonError, jsonResponse] at h, fun _ _ _ _ _ _ h => by simp at h⟩
    · split at hrun
      · simp only [Option.map_some', Option.some.injEq, Prod.mk.injEq] at hrun
        obtain ⟨rfl, rfl⟩ := hrun
        exact ⟨fun h => by simp [jsonError, jsonResponse] at h, fun _ _ _ _ _ _ h => by simp at h⟩
      · split at hrun
        · -- the direct remove succeeded
          simp only [Option.map_some', Option.some.injEq, Prod.mk.injEq] at hrun
          obtain ⟨rfl, rfl⟩ := hrun
          exact ⟨fun _ => Or.inl rfl, fun _ _ _ _ _ _ h => by simp at h⟩
        · split at hrun
          · -- stat failed
            simp only [Option.map_some', Option.some.injEq, Prod.mk.injEq] at hrun
            obtain ⟨rfl, rfl⟩ := hrun
            exact ⟨fun h => by simp [jsonError, jsonResponse] at h,
              fun _ _ _ _ _ _ h => by simp at h⟩
          · split at hrun
            · -- a directory: the walk
              split at hrun
              · simp at hrun
              · rename_i rmErr s3 w hwalk
                simp only [Option.map_some', Option.some.injEq, Prod.mk.injEq] at hrun
                obtain ⟨rfl, rfl⟩ := hrun
                have hstop := removeDir_stops W c fuel _ _ _ _ _ hwalk
                refine ⟨fun h => by simp [jsonError, jsonResponse] at h, ?_⟩
                intro e w1 pre ev post e1 ht hw hev
                simp only [List.cons.injEq, true_and] at ht
                obtain ⟨_, rfl⟩ := ht
                obtain ⟨h1, h2, h3⟩ := stops_failure_last hstop hw hev
                simp only [Option.some.injEq] at h3
                exact ⟨h1, h2, by rw [h3]⟩
              · rename_i s3 w hwalk
                simp only [Option.map_some', Option.some.injEq, Prod.mk.injEq] at hrun
                obtain ⟨rfl, rfl⟩ := hrun
                have hstop := removeDir_stops W c fuel _ _ _ _ _ hwalk
                refine ⟨fun _ => Or.inr ⟨_, w, rfl, hstop, removeDir_last W c fuel _ _ _ _ hwalk⟩, ?_⟩
                intro e w1 pre ev post e1 ht hw hev
                simp only [List.cons.injEq, true_and] at ht
                obtain ⟨_, rfl⟩ := ht
                obtain ⟨_, _, h3⟩ := stops_failure_last hstop hw hev
                simp at h3
            · -- a plain file
              simp only [Option.map_some', Option.some.injEq, Prod.mk.injEq] at hrun
              obtain ⟨rfl, rfl⟩ := hrun
              refine ⟨fun h => by simp [jsonError, jsonResponse] at h, ?_⟩
              intro e w1 pre ev post e1 ht hw _
              simp only [List.cons.injEq, true_and] at ht
              obtain ⟨_, _, rfl⟩ := ht
              simp at hw
  · intro f deny fuel hnd hfuel
    have hwalk := removeDir_returns c (r.query "path") f fuel
      { mount (r.query "path") f with deny := deny } hnd hfuel (mount_root _ f)
      (mount_hosts _ f hnd)
    simp only [handleDelete, hc]
    split
    · exact ⟨_, rfl⟩
    · split
      · exact ⟨_, rfl⟩
      · split
        · exact ⟨_, rfl⟩
        · rename_i err s1 hrm
          have h1 := sim_remove_failed_state c _ _ _ _ hrm
          subst h1
          split
          · exact ⟨_, rfl⟩
          · rename_i stat s2 hst
            have h2 : s2 = _ := (congrArg Prod.snd hst).symm.trans (sim_stat_state c _ _)
            subst h2
            split
            · obtain ⟨⟨rw, sw, tw⟩, hw⟩ := hwalk
              rw [hw]
              cases rw <;> exact ⟨_, rfl⟩
            · exact ⟨_, rfl⟩

/-- Deleting `d` on `lockedRemote`: the walk stops at `d/f/g.txt`; neither
`d/f` nor `d/h.txt` nor `d` is touched afterwards. -/
theorem handleDelete_deleted_only_if_witness :
    (handleDelete simWorld ⟨some ⟨0⟩, some ⟨⟨0⟩⟩, 1⟩ 3 ⟨"DELETE", [("path", "d")], none, .error ""⟩
        lockedRemote).map (fun out => (out.1, out.2.2)) =
      some (jsonError 500 "Failed to delete directory: permission denied",
        [⟨.Remove "d", some "directory not empty"⟩, ⟨.Stat "d", none⟩, ⟨.ReadDir "d", none⟩,
         ⟨.Remove "d/e.txt", none⟩, ⟨.ReadDir "d/f", none⟩,
         ⟨.Remove "d/f/g.txt", some "permission denied"⟩]) ∧
    (∀ e w pre ev post rmErr,
      [⟨.Remove "d", some "directory not empty"⟩, ⟨.Stat "d", none⟩, ⟨.ReadDir "d", none⟩,
         ⟨.Remove "d/e.txt", none⟩, ⟨.ReadDir "d/f", none⟩,
         ⟨.Remove "d/f/g.txt", some "permission denied"⟩] =
        (⟨.Remove "d", some e⟩ : Event) :: ⟨.Stat "d", none⟩ :: w →
      w = pre ++ ev :: post → ev.err = some rmErr →
      post = [] ∧ (∀ x ∈ pre, x.err = none) ∧
        jsonError 500 "Failed to delete directory: permission denied" =
          jsonError 500 ("Failed to delete directory: " ++ rmErr)) ∧
    ∃ out, handleDelete simWorld ⟨some ⟨0⟩, some ⟨⟨0⟩⟩, 1⟩ 3
      ⟨"DELETE", [("path", "d")], none, .error ""⟩ lockedRemote = some out := by
  have hrun : (handleDelete simWorld ⟨some ⟨0⟩, some ⟨⟨0⟩⟩, 1⟩ 3
      ⟨"DELETE", [("path", "d")], none, .error ""⟩ lockedRemote).map
        (fun out => (out.1, out.2.2)) =
      some (jsonError 500 "Failed to delete directory: permission denied",
        [⟨.Remove "d", some "directory not empty"⟩, ⟨.Stat "d", none⟩, ⟨.ReadDir "d", none⟩,
         ⟨.Remove "d/e.txt", none⟩, ⟨.ReadDir "d/f", none⟩,
         ⟨.Remove "d/f/g.txt", some "permission denied"⟩]) := by decide
  have h := handleDelete_deleted_only_if ⟨some ⟨0⟩, some ⟨⟨0⟩⟩, 1⟩ ⟨⟨0⟩⟩
    ⟨"DELETE", [("path", "d")], none, .error ""⟩ rfl
  exact ⟨hrun, (h.1 Sim simWorld 3 lockedRemote _ _ hrun).2,
    h.2 lockedTree _ 3 (by decide) (by decide)⟩

/-! ## The session store -/

theorem keepStore_server {σ : Type} (h : Server → Request → σ → Response × σ × List Event)
    (srv : Server) (r : Request) (s : σ) (out : Response × Server × σ × List Event)
    (hout : keepStore h srv r s = some out) : out.2.1 = srv := by
  simp only [keepStore, Option.some.injEq] at hout
  rw [← hout]

theorem keepStoreFuel_server {σ : Type}
    (h : Server → Request → σ → Option (Response × σ × List Event))
    (srv : Server) (r : Request) (s : σ) (out : Response × Server × σ × List Event)
    (hout : keepStoreFuel h srv r s = some out) : out.2.1 = srv := by
  simp only [keepStoreFuel] at hout
  split at hout
  · simp at hout
  · simp only [Option.some.injEq] at hout
    rw [← hout]

theorem cors_paired {σ : Type}
    (next : Server → Request → σ → Option (Response × Server × σ × List Event))
    (srv : Server) (r : Request) (s : σ) (out : Response × Server × σ × List Event)
    (hnext : ∀ out, next srv r s = some out → Paired out.2.1) (hsrv : Paired srv)
    (hout : corsMiddleware next srv r s = some out) : Paired out.2.1 := by
  simp only [corsMiddleware] at hout
  split at hout
  · simp only [Option.some.injEq] at hout
    rw [← hout]; exact hsrv
  · exact hnext out hout

/-- The answer of `handleConnect` leaves the store paired, whatever it held
before, unless the request is turned away before the lock is taken, in which
case the store is untouched. -/
theorem handleConnect_paired {σ : Type} (W : World σ) (srv : Server) (r : Request) (s : σ)
    (hsrv : Paired srv) : Paired (handleConnect W srv r s).2.1 := by
  simp only [handleConnect]
  split
  · exact hsrv
  · split
    · exact hsrv
    · split
      · exact Or.inl ⟨rfl, rfl⟩
      · split
        · exact Or.inl ⟨rfl, rfl⟩
        · exact Or.inr ⟨⟨srv.dials⟩, rfl, rfl, rfl⟩

theorem handleDisconnect_paired {σ : Type} (W : World σ) (srv : Server) (r : Request) (s : σ) :
    Paired (handleDisconnect W srv r s).2.1 :=
  Or.inl ⟨rfl, rfl⟩

theorem serve_paired {σ : Type} (W : World σ) (fuel : Nat) (route : Route) (srv : Server)
    (r : Request) (s : σ) (out : Response × Server × σ × List Event) (hsrv : Paired srv)
    (hout : serve W fuel route srv r s = some out) : Paired out.2.1 := by
  cases route <;> simp only [serve] at hout <;> refine cors_paired _ srv r s out ?_ hsrv hout
  case connect =>
    intro o ho
    simp only [Option.some.injEq] at ho
    rw [← ho]; exact handleConnect_paired W srv r s hsrv
  case disconnect =>
    intro o ho
    simp only [Option.some.injEq] at ho
    rw [← ho]; exact handleDisconnect_paired W srv r s
  case delete => intro o ho; rw [keepStoreFuel_server _ _ _ _ _ ho]; exact hsrv
  case downloaddir => intro o ho; rw [keepStoreFuel_server _ _ _ _ _ ho]; exact hsrv
  all_goals intro o ho; rw [keepStore_server _ _ _ _ _ ho]; exact hsrv

/-- C7. In every world, every state reachable from the empty store by any
sequence of requests (Connect requests that succeed, fail at the dial or fail
at the derivation of the file-transfer client, Disconnect requests, and all
others) has the pair invariant: the store is empty, or holds a transport and
the file-transfer client derived from that same transport, the one dialled
last.  A Connect whose dial or whose file-transfer derivation fails leaves the
store empty. -/
theorem store_pair_invariant {σ : Type} (W : World σ) (srv : Server) (s : σ)
    (h : Reachable W srv s) :
    Paired srv ∧
    ∀ (r : Request) (ev : Event), ev ∈ (handleConnect W srv r s).2.2.2 →
      ((∃ conn, ev.call = .NewClient conn) ∨ (∃ a u p, ev.call = .Dial a u p)) →
      ev.err ≠ none →
      (handleConnect W srv r s).2.1.sshClient = none ∧
      (handleConnect W srv r s).2.1.sftpClient = none := by
  constructor
  · induction h with
    | start s => exact Or.inl ⟨rfl, rfl⟩
    | request route fuel r srv s out _ hout ih => exact serve_paired W fuel route srv r s out ih hout
    | drift srv s s1 _ ih => exact ih
  · intro r ev hev hcall herr
    revert hev
    simp only [handleConnect]
    split
    · simp
    · split
      · simp
      · split
        · exact fun _ => ⟨rfl, rfl⟩
        · split
          · exact fun _ => ⟨rfl, rfl⟩
          · intro hev
            exfalso
            cases hsf : srv.sftpClient <;> cases hss : srv.sshClient <;>
              simp only [hsf, hss, List.append_nil, List.nil_append, List.mem_cons,
                List.mem_append, List.mem_singleton, List.not_mem_nil, or_false,
                false_or] at hev
            all_goals
              rcases hcall with ⟨conn, hc⟩ | ⟨a, u, p, hc⟩ <;>
                (repeat' rcases hev with hev | hev) <;> simp_all

/-- The state after one successful Connect on the simulated world. -/
theorem store_pair_invariant_witness :
    Reachable simWorld ⟨some ⟨0⟩, some ⟨⟨0⟩⟩, 1⟩ (mount "/srv" .nil) ∧
    Paired ⟨some ⟨0⟩, some ⟨⟨0⟩⟩, 1⟩ ∧
    ∀ (r : Request) (ev : Event),
      ev ∈ (handleConnect simWorld ⟨some ⟨0⟩, some ⟨⟨0⟩⟩, 1⟩ r (mount "/srv" .nil)).2.2.2 →
      ((∃ conn, ev.call = .NewClient conn) ∨ (∃ a u p, ev.call = .Dial a u p)) →
      ev.err ≠ none →
      (handleConnect simWorld ⟨some ⟨0⟩, some ⟨⟨0⟩⟩, 1⟩ r (mount "/srv" .nil)).2.1.sshClient
          = none ∧
      (handleConnect simWorld ⟨some ⟨0⟩, some ⟨⟨0⟩⟩, 1⟩ r (mount "/srv" .nil)).2.1.sftpClient
          = none := by
  have hreach : Reachable simWorld ⟨some ⟨0⟩, some ⟨⟨0⟩⟩, 1⟩ (mount "/srv" .nil) :=
    Reachable.request .connect 0
      ⟨"POST", [], some ⟨fun k => if k = "host" then "example.org" else "root", fun _ => 0⟩,
        .error ""⟩
      ⟨none, none, 0⟩ (mount "/srv" .nil)
      (jsonResponse 200 (.status "connected"), ⟨some ⟨0⟩, some ⟨⟨0⟩⟩, 1⟩, mount "/srv" .nil,
        [⟨.Dial "example.org:22" "root" "root", none⟩, ⟨.NewClient ⟨0⟩, none⟩])
      (Reachable.start _) rfl
  exact ⟨hreach, store_pair_invariant simWorld _ _ hreach⟩

/-! ## Requests without a session -/

/-- C8 (the claim as stated fails). With no session, a `GET` request to
`/delete` is answered 405 `Method not allowed`, not `Not connected`: the
method is checked before the session. -/
theorem not_connected_counterexample :
    (serve simWorld 0 .delete ⟨none, none, 0⟩ ⟨"GET", [("path", "d")], none, .error ""⟩
        (mount "d" .nil)).map (fun out => (out.1, out.2.2.2)) =
      some (jsonError 405 "Method not allowed", []) ∧
    jsonError 405 "Method not allowed" ≠ jsonError 400 "Not connected" := by
  decide

/-- C8 (amended). In every world, when the session store holds no current
session, every data-plane endpoint makes no call at all on its environment
and leaves the store and the world as they are; it answers 400
`Not connected`, except that an `OPTIONS` request is answered 200 by the
middleware and a request whose method is not the one the handler insists on
is answered 405. -/
theorem not_connected_no_remote_call {σ : Type} (W : World σ) (fuel : Nat) (route : Route)
    (srv : Server) (r : Request) (s : σ) (hroute : route.isDataPlane = true)
    (hssh : srv.sshClient = none) (hsftp : srv.sftpClient = none) :
    serve W fuel route srv r s = some (answerWithoutSession route r, srv, s, []) := by
  by_cases ho : r.Method = "OPTIONS"
  · cases route <;> simp [serve, corsMiddleware, ho, answerWithoutSession]
  · cases route <;> simp only [Route.isDataPlane, Bool.false_eq_true] at hroute <;>
      simp only [serve, corsMiddleware, ho, if_false, answerWithoutSession, Route.method,
        keepStore, keepStoreFuel, handleFiles, handleUpload, handleDelete, handleRename,
        handleMkdir, handleDownload, handleDiskInfo, handleSysInfo, handleExists,
        handleDownloadDir, handleReadFile, handleWriteFile, handleExec, hssh, hsftp] <;>
      split_ifs <;> rfl

/-- Witness: `DELETE /delete?path=d` on an empty store. -/
theorem not_connected_no_remote_call_witness :
    serve simWorld 0 .delete ⟨none, none, 0⟩ ⟨"DELETE", [("path", "d")], none, .error ""⟩
        (mount "d" .nil) =
      some (jsonError 400 "Not connected", ⟨none, none, 0⟩, mount "d" .nil, []) :=
  not_connected_no_remote_call simWorld 0 .delete ⟨none, none, 0⟩
    ⟨"DELETE", [("path", "d")], none, .error ""⟩ (mount "d" .nil) rfl rfl rfl

/-! ## Command runner -/

/-- C9. In `handleExec`, with a session and a well-formed request: if the exec
channel cannot be opened the answer is the hard error 500 `Session failed`;
once it is opened, a command that reports no error yields 200 with
`exitCode` 0 and the captured output, a command that ends with exit status
`n` (an `*ssh.ExitError`) yields 200 with `exitCode` `n` and the captured
output, and any other error yields the hard error 500 `Exec failed`.  As the
library returns an `*ssh.ExitError` only for a non-zero status, the 200 answer
has `exitCode` 0 exactly when the command reported no error. -/
theorem handleExec_exit_code {σ : Type} (W : World σ) (srv : Server) (client : SshClient)
    (r : Request) (req : JsonBody) (s : σ) (hc : srv.sshClient = some client)
    (hm : r.Method = "POST") (hj : r.Json = some req) :
    (∀ e s1, W.NewSession client s = (some e, s1) →
      (handleExec W srv r s).1 = jsonError 500 ("Session failed: " ++ e)) ∧
    (∀ s1 output err s2, W.NewSession client s = (none, s1) →
      W.CombinedOutput client (req.str "command") s1 = ((output, err), s2) →
      (err = none → (handleExec W srv r s).1 = jsonResponse 200 (.exec output 0)) ∧
      (∀ n m, err = some (.exit n m) →
        (handleExec W srv r s).1 = jsonResponse 200 (.exec output n)) ∧
      (∀ msg, err = some (.other msg) →
        (handleExec W srv r s).1 = jsonError 500 ("Exec failed: " ++ msg)) ∧
      ((∀ n m, err = some (.exit n m) → n ≠ 0) →
        ∀ out code, (handleExec W srv r s).1 = jsonResponse 200 (.exec out code) →
          out = output ∧ (code = 0 ↔ err = none))) := by
  constructor
  · intro e s1 hopen
    simp [handleExec, hm, hc, hj, hopen]
  · intro s1 output err s2 hopen hrun
    have hresp : (handleExec W srv r s).1 =
        match err with
        | none => jsonResponse 200 (.exec output 0)
        | some (.exit status _) => jsonResponse 200 (.exec output status)
        | some (.other msg) => jsonError 500 ("Exec failed: " ++ msg) := by
      simp only [handleExec, hm, hc, hj, hopen, hrun, ne_eq, not_true_eq_false, if_false]
      rcases err with _ | ⟨n, m⟩ | msg <;> rfl
    refine ⟨?_, ?_, ?_, ?_⟩
    · rintro rfl; exact hresp
    · rintro n m rfl; exact hresp
    · rintro msg rfl; exact hresp
    · intro hlib out code hcode
      rw [hresp] at hcode
      rcases err with _ | ⟨n, m⟩ | msg
      · simp only [jsonResponse, Response.json.injEq, Body.exec.injEq, true_and] at hcode
        exact ⟨hcode.1.symm, by simp [hcode.2.symm]⟩
      · simp only [jsonResponse, Response.json.injEq, Body.exec.injEq, true_and] at hcode
        refine ⟨hcode.1.symm, ?_⟩
        have := hlib n m rfl
        rw [← hcode.2]
        simp [this]
      · simp [jsonResponse, jsonError] at hcode

/-- Witness: the command `false` ends with exit status 1. -/
theorem handleExec_exit_code_witness :
    (handleExec simWorld ⟨some ⟨0⟩, some ⟨⟨0⟩⟩, 1⟩
        ⟨"POST", [], some ⟨fun _ => "false", fun _ => 0⟩, .error ""⟩
        { mount "/srv" .nil with
          exec := fun _ => ("", some (.exit 1 "Process exited with status 1")) }).1 =
      jsonResponse 200 (.exec "" 1) :=
  ((handleExec_exit_code simWorld ⟨some ⟨0⟩, some ⟨⟨0⟩⟩, 1⟩ ⟨0⟩
      ⟨"POST", [], some ⟨fun _ => "false", fun _ => 0⟩, .error ""⟩ ⟨fun _ => "false", fun _ => 0⟩
      { mount "/srv" .nil with
        exec := fun _ => ("", some (.exit 1 "Process exited with status 1")) }
      rfl rfl rfl).2 _ "" (some (.exit 1 "Process exited with status 1")) _ rfl rfl).2.1 1 _ rfl

/-! ## `path.Clean` resolves `..` lexically -/

theorem splitChars_ne_nil (sep : Char) (l : List Char) : splitChars sep l ≠ [] := by
  cases l with
  | nil => simp [splitChars]
  | cons c cs =>
    simp only [splitChars]
    split
    · simp
    · split <;> simp

theorem splitChars_field (l : List Char) (h : '/' ∉ l) : splitChars '/' l = [l] := by
  induction l with
  | nil => rfl
  | cons c cs ih =>
    simp only [List.mem_cons, not_or] at h
    have hc : c ≠ '/' := fun e => h.1 e.symm
    simp [splitChars, hc, ih h.2]

theorem splitChars_append (seg t : List Char) (h : '/' ∉ seg) :
    splitChars '/' (seg ++ '/' :: t) = seg :: splitChars '/' t := by
  induction seg with
  | nil => simp [splitChars]
  | cons c cs ih =>
    simp only [List.mem_cons, not_or] at h
    have hc : c ≠ '/' := fun e => h.1 e.symm
    simp [splitChars, hc, ih h.2]

/-- Every character list is a slash-free field followed by nothing or by a
slash and more. -/
theorem field_decomp (l : List Char) :
    ∃ seg rest, l = seg ++ rest ∧ '/' ∉ seg ∧ (rest = [] ∨ ∃ t, rest = '/' :: t) := by
  induction l with
  | nil => exact ⟨[], [], rfl, by simp, Or.inl rfl⟩
  | cons c cs ih =>
    by_cases hc : c = '/'
    · exact ⟨[], c :: cs, rfl, by simp, Or.inr ⟨cs, by rw [hc]⟩⟩
    · obtain ⟨seg, rest, h1, h2, h3⟩ := ih
      refine ⟨c :: seg, rest, by rw [h1]; rfl, ?_, h3⟩
      simp only [List.mem_cons, not_or]
      exact ⟨fun e => hc e.symm, h2⟩

theorem copyElem_field (seg rest out : List Char) (h : '/' ∉ seg)
    (hrest : rest = [] ∨ ∃ t, rest = '/' :: t) :
    copyElem (seg ++ rest) out = (rest, seg.reverse ++ out) := by
  induction seg generalizing out with
  | nil =>
    rcases hrest with rfl | ⟨t, rfl⟩ <;> simp [copyElem]
  | cons c cs ih =>
    simp only [List.mem_cons, not_or] at h
    have hc : c ≠ '/' := fun e => h.1 e.symm
    simp [copyElem, hc, ih _ h.2]

theorem backtrack_field (d : Nat) (seg tail : List Char) (hne : seg ≠ []) (h : '/' ∉ seg)
    (hd : d ≤ tail.length) :
    backtrack d (seg.reverse ++ tail) = if d < tail.length then backtrack d tail else tail := by
  induction seg using List.reverseRecOn with
  | nil => exact absurd rfl hne
  | append_singleton init c ih =>
    simp only [List.mem_append, List.mem_singleton, not_or] at h
    have hc : c ≠ '/' := fun e => h.2 e.symm
    simp only [List.reverse_append, List.reverse_singleton, List.singleton_append,
      List.cons_append, backtrack]
    by_cases hinit : init = []
    · subst hinit
      simp [hc]
    · have := ih hinit h.1
      have hpos : 0 < init.length := List.length_pos.mpr hinit
      have hlen : d < init.length + tail.length := by omega
      rw [if_pos ⟨by simpa using hlen, hc⟩]
      exact this

theorem outOf_cons (rooted : Bool) (seg : List Char) (below : List (List Char)) :
    outOf rooted (seg :: below) =
      seg.reverse ++ (if below = [] then outOf rooted [] else '/' :: outOf rooted below) := by
  rfl

theorem outOf_length_pos (rooted : Bool) (stack : List (List Char)) (hne : stack ≠ [])
    (hall : ∀ seg ∈ stack, seg ≠ []) :
    (outOf rooted []).length < (outOf rooted stack).length := by
  induction stack with
  | nil => exact absurd rfl hne
  | cons seg below ih =>
    have hseg : 0 < seg.length := List.length_pos.mpr (hall seg (by simp))
    by_cases hb : below = []
    · subst hb
      simp only [outOf_cons, if_true, List.length_append, List.length_reverse]
      omega
    · have := ih hb (fun s hs => hall s (by simp [hs]))
      simp only [outOf_cons, hb, if_false, List.length_append, List.length_reverse,
        List.length_cons]
      omega

theorem replicate_dotdot_nonempty (k : Nat) : ∀ seg ∈ List.replicate k dotdotSeg, seg ≠ [] := by
  intro seg hseg
  rw [List.eq_of_mem_replicate hseg]
  simp [dotdotSeg]

theorem stackOf_nonempty (ord : List (List Char)) (k : Nat) (hord : ∀ seg ∈ ord, Ordinary seg) :
    ∀ seg ∈ stackOf ord k, seg ≠ [] := by
  intro seg hseg
  rcases List.mem_append.mp hseg with h | h
  · exact (hord seg h).1
  · exact replicate_dotdot_nonempty k seg h

/-- The output is at least as long as its start of `..` segments, and longer
exactly when an ordinary segment follows. -/
theorem dotdotAt_le (rooted : Bool) (ord : List (List Char)) (k : Nat)
    (hord : ∀ seg ∈ ord, Ordinary seg) :
    dotdotAt rooted k ≤ (outOf rooted (stackOf ord k)).length ∧
    (ord ≠ [] → dotdotAt rooted k < (outOf rooted (stackOf ord k)).length) := by
  induction ord with
  | nil => simp [stackOf, dotdotAt]
  | cons top below ih =>
    have hih := (ih fun s hs => hord s (by simp [hs])).1
    have htop : 0 < top.length := List.length_pos.mpr (hord top (by simp)).1
    have hlt : dotdotAt rooted k < (outOf rooted (stackOf (top :: below) k)).length := by
      simp only [stackOf, List.cons_append, outOf_cons, List.length_append,
        List.length_reverse]
      simp only [stackOf] at hih
      split
      · rename_i hb
        rw [hb] at hih
        omega
      · simp only [List.length_cons]
        omega
    exact ⟨Nat.le_of_lt hlt, fun _ => hlt⟩

/-- Backtracking over the ordinary segment on top of the stack removes that
segment and its separator. -/
theorem backtrack_top (rooted : Bool) (top : List Char) (below : List (List Char)) (k : Nat)
    (htop : Ordinary top) (hbelow : ∀ seg ∈ below, Ordinary seg) :
    backtrack (dotdotAt rooted k) (outOf rooted (stackOf (top :: below) k)) =
      outOf rooted (stackOf below k) := by
  have hle := (dotdotAt_le rooted below k hbelow).1
  simp only [stackOf, List.cons_append, outOf_cons]
  simp only [stackOf] at hle
  by_cases hb : below ++ List.replicate k dotdotSeg = []
  · rw [hb] at hle
    simp only [hb, if_true]
    have hk : List.replicate k dotdotSeg = [] := (List.append_eq_nil.mp hb).2
    have hd : dotdotAt rooted k = (outOf rooted []).length := by simp [dotdotAt, hk]
    rw [backtrack_field _ _ _ htop.1 htop.2.1 (by omega), hd]
    simp
  · simp only [hb, if_false]
    rw [backtrack_field _ _ _ htop.1 htop.2.1 (by simp only [List.length_cons]; omega)]
    rw [if_pos (by simp only [List.length_cons]; omega)]
    simp [backtrack]

/-- The slash that `path.Clean` adds before a real path element is the
separator of `outOf`. -/
theorem slash_if_needed (rooted : Bool) (stack : List (List Char))
    (hall : ∀ seg ∈ stack, seg ≠ []) :
    (if (rooted ∧ (outOf rooted stack).length ≠ 1) ∨ (!rooted ∧ (outOf rooted stack).length ≠ 0)
      then '/' :: outOf rooted stack else outOf rooted stack) =
      (if stack = [] then outOf rooted [] else '/' :: outOf rooted stack) := by
  by_cases hs : stack = []
  · subst hs
    cases rooted <;> simp [outOf, rootOf]
  · have := outOf_length_pos rooted stack hs hall
    cases rooted
    · simp only [outOf, rootOf, Bool.false_eq_true, if_false, List.length_nil] at this
      have h0 : (outOf false stack).length ≠ 0 := by omega
      simp [hs, h0]
    · simp only [outOf, rootOf, if_true, List.length_singleton] at this
      have h1 : (outOf true stack).length ≠ 1 := by omega
      simp [hs, h1]

theorem resolve_split_field (rooted : Bool) (seg rest : List Char) (h : '/' ∉ seg)
    (hrest : rest = [] ∨ ∃ t, rest = '/' :: t) :
    ∃ more, splitChars '/' (seg ++ rest) = seg :: more ∧
      ∀ stack, resolve rooted (splitChars '/' rest) stack = resolve rooted more stack := by
  rcases hrest with rfl | ⟨t, rfl⟩
  · exact ⟨[], by simp [splitChars_field seg h], fun stack => by simp [splitChars, resolve]⟩
  · exact ⟨splitChars '/' t, splitChars_append seg t h,
      fun stack => by simp [splitChars, resolve]⟩

theorem cleanLoop_slash (rooted : Bool) (fuel : Nat) (t out : List Char) (d : Nat) :
    cleanLoop rooted (fuel + 1) ('/' :: t) out d = cleanLoop rooted fuel t out d := by
  simp [cleanLoop]

theorem cleanLoop_dot (rooted : Bool) (fuel : Nat) (rest out : List Char) (d : Nat)
    (hrest : rest = [] ∨ ∃ t, rest = '/' :: t) :
    cleanLoop rooted (fuel + 1) ('.' :: rest) out d = cleanLoop rooted fuel rest out d := by
  rcases hrest with rfl | ⟨t, rfl⟩ <;> simp [cleanLoop]

theorem cleanLoop_dotdot (rooted : Bool) (fuel : Nat) (rest out : List Char) (d : Nat)
    (hrest : rest = [] ∨ ∃ t, rest = '/' :: t) :
    cleanLoop rooted (fuel + 1) ('.' :: '.' :: rest) out d =
      if d < out.length then cleanLoop rooted fuel rest (backtrack d out) d
      else if !rooted then
        cleanLoop rooted fuel rest ('.' :: '.' :: (if 0 < out.length then '/' :: out else out))
          ('.' :: '.' :: (if 0 < out.length then '/' :: out else out)).length
      else cleanLoop rooted fuel rest out d := by
  rcases hrest with rfl | ⟨t, rfl⟩ <;> simp [cleanLoop]

theorem cleanLoop_ordinary (rooted : Bool) (fuel : Nat) (seg rest out : List Char) (d : Nat)
    (hseg : Ordinary seg) (hrest : rest = [] ∨ ∃ t, rest = '/' :: t) :
    cleanLoop rooted (fuel + 1) (seg ++ rest) out d =
      cleanLoop rooted fuel rest
        (seg.reverse ++ (if (rooted ∧ out.length ≠ 1) ∨ (!rooted ∧ out.length ≠ 0)
          then '/' :: out else out)) d := by
  obtain ⟨hne, hslash, hdot, hdd⟩ := hseg
  cases seg with
  | nil => exact absurd rfl hne
  | cons c cs =>
    simp only [List.mem_cons, not_or] at hslash
    have hc : c ≠ '/' := fun e => hslash.1 e.symm
    -- the element is neither `.` nor `..`
    have h2 : ¬ (c = '.' ∧ (cs ++ rest = [] ∨ (cs ++ rest).head? = some '/')) := by
      rintro ⟨rfl, h | h⟩
      · exact hdot (by rw [(List.append_eq_nil.mp h).1])
      · cases cs with
        | nil => exact hdot rfl
        | cons x xs =>
          simp only [List.cons_append, List.head?_cons, Option.some.injEq] at h
          exact hslash.2 (by simp [h])
    have h3 : ¬ (c = '.' ∧ (cs ++ rest).head? = some '.' ∧
        ((cs ++ rest).tail = [] ∨ (cs ++ rest).tail.head? = some '/')) := by
      rintro ⟨rfl, hh, ht⟩
      cases cs with
      | nil =>
        rcases hrest with rfl | ⟨t, rfl⟩ <;> simp at hh
      | cons x xs =>
        simp only [List.cons_append, List.head?_cons, Option.some.injEq] at hh
        subst hh
        simp only [List.cons_append, List.tail_cons] at ht
        rcases ht with ht | ht
        · exact hdd (by rw [(List.append_eq_nil.mp ht).1]; rfl)
        · cases xs with
          | nil => exact hdd rfl
          | cons y ys =>
            simp only [List.cons_append, List.head?_cons, Option.some.injEq] at ht
            exact hslash.2 (by simp [ht])
    have hcopy := copyElem_field (c :: cs) rest
      (if (rooted ∧ out.length ≠ 1) ∨ (!rooted ∧ out.length ≠ 0) then '/' :: out else out)
      (by simp only [List.mem_cons, not_or]; exact hslash) hrest
    rw [List.cons_append] at hcopy ⊢
    rw [cleanLoop]
    simp only [hc, if_false, h2, h3, hcopy]

theorem resolve_dotdot_stackOf (rooted : Bool) (more : List (List Char))
    (ord : List (List Char)) (k : Nat) (hord : ∀ seg ∈ ord, Ordinary seg)
    (hk : rooted = true → k = 0) :
    resolve rooted (dotdotSeg :: more) (stackOf ord k) =
      resolve rooted more
        (match ord with
         | _ :: below => stackOf below k
         | [] => if rooted then stackOf [] 0 else stackOf [] (k + 1)) := by
  have hd1 : ¬ (dotdotSeg = [] ∨ dotdotSeg = ['.']) := by decide
  cases ord with
  | cons top below =>
    have htop : top ≠ dotdotSeg := (hord top (by simp)).2.2.2
    simp [resolve, hd1, stackOf, htop]
  | nil =>
    cases k with
    | zero => cases rooted <;> simp [resolve, hd1, stackOf]
    | succ k =>
      have hr : rooted = false := by
        cases rooted
        · rfl
        · exact absurd (hk rfl) (by simp)
      subst hr
      simp [resolve, hd1, stackOf, List.replicate_succ]

/-- The loop of `path.Clean`, started on a buffer that holds the stack
`stackOf ord k`, ends on the buffer that holds the stack `resolve` reaches on
the segments of the unread input. -/
theorem cleanLoop_resolve (rooted : Bool) :
    ∀ (fuel : Nat) (l : List Char) (ord : List (List Char)) (k : Nat), l.length ≤ fuel →
      (∀ seg ∈ ord, Ordinary seg) → (rooted = true → k = 0) →
      cleanLoop rooted fuel l (outOf rooted (stackOf ord k)) (dotdotAt rooted k) =
        outOf rooted (resolve rooted (splitChars '/' l) (stackOf ord k)) := by
  intro fuel
  induction fuel with
  | zero =>
    intro l ord k hl _ _
    have : l = [] := List.length_eq_zero.mp (Nat.le_zero.mp hl)
    subst this
    simp [cleanLoop, splitChars, resolve]
  | succ fuel ih =>
    intro l ord k hl hord hk
    obtain ⟨seg, rest, rfl, hslash, hrest⟩ := field_decomp l
    simp only [List.length_append] at hl
    obtain ⟨more, hsplit, hmore⟩ := resolve_split_field rooted seg rest hslash hrest
    by_cases h0 : seg = []
    · -- an empty path element
      subst h0
      rcases hrest with rfl | ⟨t, rfl⟩
      · simp [cleanLoop, splitChars, resolve]
      · simp only [List.nil_append, cleanLoop_slash]
        rw [ih t ord k (by simp at hl; omega) hord hk]
        simp [splitChars, resolve]
    · have hpos : 0 < seg.length := List.length_pos.mpr h0
      by_cases h1 : seg = ['.']
      · -- a `.` element
        subst h1
        rw [hsplit, List.singleton_append, cleanLoop_dot rooted fuel rest _ _ hrest,
          ih rest ord k (by simp at hl; omega) hord hk, hmore]
        simp [resolve]
      · by_cases h2 : seg = dotdotSeg
        · -- a `..` element
          subst h2
          rw [hsplit, resolve_dotdot_stackOf rooted more ord k hord hk]
          have hlen : rest.length ≤ fuel := by simp [dotdotSeg] at hl; omega
          show cleanLoop rooted (fuel + 1) ('.' :: '.' :: rest) _ _ = _
          rw [cleanLoop_dotdot rooted fuel rest _ _ hrest]
          cases ord with
          | cons top below =>
            have hbelow : ∀ s ∈ below, Ordinary s := fun s hs => hord s (by simp [hs])
            rw [if_pos ((dotdotAt_le rooted (top :: below) k hord).2 (by simp)),
              backtrack_top rooted top below k (hord top (by simp)) hbelow,
              ih rest below k hlen hbelow hk, hmore]
          | nil =>
            have hnot : ¬ dotdotAt rooted k < (outOf rooted (stackOf [] k)).length := by
              simp [stackOf, dotdotAt]
            rw [if_neg hnot]
            cases rooted with
            | true =>
              have hk0 : k = 0 := hk rfl
              subst hk0
              simp only [Bool.not_true, Bool.false_eq_true, if_false, if_true]
              rw [ih rest [] 0 hlen hord hk, hmore]
            | false =>
              simp only [Bool.not_false, if_true, Bool.false_eq_true, if_false]
              have hout : ('.' :: '.' :: (if 0 < (outOf false (stackOf [] k)).length
                  then '/' :: outOf false (stackOf [] k) else outOf false (stackOf [] k))) =
                  outOf false (stackOf [] (k + 1)) := by
                have hstack : stackOf [] (k + 1) = dotdotSeg :: stackOf [] k := by
                  simp [stackOf, List.replicate_succ]
                have h00 : (outOf false []).length = 0 := rfl
                rw [hstack, outOf_cons]
                by_cases hk0 : stackOf [] k = []
                · rw [if_pos hk0, hk0, if_neg (by omega)]
                  rfl
                · have := outOf_length_pos false (stackOf [] k) hk0
                    (stackOf_nonempty [] k hord)
                  rw [if_neg hk0, if_pos (by omega)]
                  rfl
              rw [hout]
              have hd : (outOf false (stackOf [] (k + 1))).length = dotdotAt false (k + 1) := by
                simp [stackOf, dotdotAt]
              rw [hd, ih rest [] (k + 1) hlen hord (by simp), hmore]
        · -- a real path element
          have hseg : Ordinary seg := ⟨h0, hslash, h1, h2⟩
          rw [hsplit, cleanLoop_ordinary rooted fuel seg rest _ _ hseg hrest,
            slash_if_needed rooted _ (stackOf_nonempty ord k hord)]
          have hpush : seg.reverse ++ (if stackOf ord k = [] then outOf rooted []
              else '/' :: outOf rooted (stackOf ord k)) =
              outOf rooted (stackOf (seg :: ord) k) := by
            simp [stackOf, outOf_cons]
          have hord2 : ∀ s ∈ seg :: ord, Ordinary s := by
            intro s hs
            rcases List.mem_cons.mp hs with rfl | hs
            · exact hseg
            · exact hord s hs
          rw [hpush, ih rest (seg :: ord) k (by omega) hord2 hk, hmore]
          have hres : resolve rooted (seg :: more) (stackOf ord k) =
              resolve rooted more (stackOf (seg :: ord) k) := by
            have h01 : ¬ (seg = [] ∨ seg = ['.']) := by simp [h0, h1]
            simp [resolve, h01, h2, stackOf]
          rw [hres]

theorem splitChars_join (x y : List Char) :
    splitChars '/' (x ++ '/' :: y) = splitChars '/' x ++ splitChars '/' y := by
  induction x with
  | nil => simp [splitChars]
  | cons c cs ih =>
    by_cases hc : c = '/'
    · simp [splitChars, hc, ih]
    · rw [List.cons_append]
      simp only [splitChars, hc, if_false, ih]
      cases h : splitChars '/' cs with
      | nil => exact absurd h (splitChars_ne_nil _ _)
      | cons field more => simp

theorem splitChars_no_sep (l : List Char) : ∀ seg ∈ splitChars '/' l, '/' ∉ seg := by
  induction l with
  | nil => simp [splitChars]
  | cons c cs ih =>
    by_cases hc : c = '/'
    · intro seg hseg
      simp only [splitChars, hc, if_true, List.mem_cons] at hseg
      rcases hseg with rfl | hseg
      · simp
      · exact ih seg hseg
    · intro seg hseg
      simp only [splitChars, hc, if_false] at hseg
      cases h : splitChars '/' cs with
      | nil => exact absurd h (splitChars_ne_nil _ _)
      | cons field more =>
        rw [h] at hseg ih
        simp only [List.mem_cons] at hseg
        rcases hseg with rfl | hseg
        · have := ih field (by simp)
          simp only [List.mem_cons, not_or]
          exact ⟨fun e => hc e.symm, this⟩
        · exact ih seg (by simp [hseg])

theorem resolve_append (rooted : Bool) (xs ys : List (List Char)) :
    ∀ stack, resolve rooted (xs ++ ys) stack = resolve rooted ys (resolve rooted xs stack) := by
  induction xs with
  | nil => intro stack; rfl
  | cons seg more ih =>
    intro stack
    simp only [List.cons_append, resolve]
    split
    · exact ih _
    · split
      · split
        · split
          · exact ih _
          · exact ih _
        · split
          · exact ih _
          · exact ih _
      · exact ih _

/-- An ordinary segment followed by `..` leaves the stack as it was. -/
theorem resolve_cancel (rooted : Bool) (name : List Char) (hname : Ordinary name)
    (stack : List (List Char)) : resolve rooted [name, dotdotSeg] stack = stack := by
  obtain ⟨h0, _, h1, h2⟩ := hname
  have h01 : ¬ (name = [] ∨ name = ['.']) := by simp [h0, h1]
  have hd1 : ¬ (dotdotSeg = [] ∨ dotdotSeg = ['.']) := by decide
  simp [resolve, h01, h2, hd1]

/-- What `resolve` leaves on the stack: ordinary segments on top of `..`
segments, and no `..` at all when the path is rooted. -/
theorem resolve_shape (rooted : Bool) (segs : List (List Char)) :
    ∀ (ord : List (List Char)) (k : Nat), (∀ s ∈ segs, '/' ∉ s) → (∀ s ∈ ord, Ordinary s) →
      (rooted = true → k = 0) →
      ∃ ord1 k1, resolve rooted segs (stackOf ord k) = stackOf ord1 k1 ∧
        (∀ s ∈ ord1, Ordinary s) ∧ (rooted = true → k1 = 0) := by
  induction segs with
  | nil => intro ord k _ hord hk; exact ⟨ord, k, rfl, hord, hk⟩
  | cons seg more ih =>
    intro ord k hsegs hord hk
    have hmore : ∀ s ∈ more, '/' ∉ s := fun s hs => hsegs s (by simp [hs])
    by_cases h01 : seg = [] ∨ seg = ['.']
    · simp only [resolve, h01, if_true]
      exact ih ord k hmore hord hk
    · by_cases h2 : seg = dotdotSeg
      · subst h2
        rw [resolve_dotdot_stackOf rooted more ord k hord hk]
        cases ord with
        | cons top below => exact ih below k hmore (fun s hs => hord s (by simp [hs])) hk
        | nil =>
          cases rooted with
          | true => exact ih [] 0 hmore hord (fun _ => rfl)
          | false => exact ih [] (k + 1) hmore hord (by simp)
      · have hseg : Ordinary seg :=
          ⟨fun e => h01 (Or.inl e), hsegs seg (by simp), fun e => h01 (Or.inr e), h2⟩
        have hres : resolve rooted (seg :: more) (stackOf ord k) =
            resolve rooted more (stackOf (seg :: ord) k) := by
          simp [resolve, h01, h2, stackOf]
        rw [hres]
        refine ih (seg :: ord) k hmore ?_ hk
        intro s hs
        rcases List.mem_cons.mp hs with rfl | hs
        · exact hseg
        · exact hord s hs

/-- The function `path.Clean` is lexical resolution of the segments of the path. -/
theorem Clean_eq_resolve (path : String) :
    Clean path = pathOf (decide (path.data.head? = some '/'))
      (resolve (decide (path.data.head? = some '/')) (splitChars '/' path.data) []) := by
  obtain ⟨l⟩ := path
  by_cases hempty : l = []
  · subst hempty
    decide
  · have hne : (String.mk l) ≠ "" := by
      intro h
      exact hempty (congrArg String.data h)
    simp only [Clean, hne, if_false]
    cases l with
    | nil => exact absurd rfl hempty
    | cons c t =>
      by_cases hc : c = '/'
      · subst hc
        have h := cleanLoop_resolve true (t.length + 1) t [] 0 (by omega) (by simp) (fun _ => rfl)
        have hs : stackOf [] 0 = [] := rfl
        have hd : dotdotAt true 0 = 1 := rfl
        have ho : outOf true [] = ['/'] := rfl
        rw [hs, hd, ho] at h
        simp only [List.head?_cons, List.tail_cons, List.length_cons, if_true, h,
          decide_True, pathOf]
        simp [splitChars, resolve]
      · have h := cleanLoop_resolve false (t.length + 1) (c :: t) [] 0 (by simp) (by simp)
          (by simp)
        have hs : stackOf [] 0 = [] := rfl
        have hd : dotdotAt false 0 = 0 := rfl
        have ho : outOf false [] = [] := rfl
        rw [hs, hd, ho] at h
        have hcs : ¬ (some c = some '/') := by simpa using hc
        simp only [List.head?_cons, List.length_cons, hcs, if_false, h, decide_False, pathOf]

theorem string_eq_empty (l : List Char) : (String.mk l = "") ↔ l = [] := by
  constructor
  · intro h; exact congrArg String.data h
  · intro h; rw [h]

/-- The function `path.Join` of two elements, not both empty, is lexical resolution of the
segments of the first followed by the segments of the second. -/
theorem Join_eq_resolve (a b : String) (h : ¬ (a = "" ∧ b = "")) :
    Join a b = pathOf (decide ((a.data ++ b.data).head? = some '/'))
      (resolve (decide ((a.data ++ b.data).head? = some '/'))
        (splitChars '/' a.data ++ splitChars '/' b.data) []) := by
  obtain ⟨la⟩ := a
  obtain ⟨lb⟩ := b
  simp only [string_eq_empty] at h
  have hlen : ¬ ((String.mk la).length + (String.mk lb).length = 0) := by
    simp only [String.length]
    intro h0
    exact h ⟨List.length_eq_zero.mp (by omega), List.length_eq_zero.mp (by omega)⟩
  simp only [Join, hlen, if_false, string_eq_empty]
  by_cases ha : la = []
  · subst ha
    simp only [if_true, Clean_eq_resolve, List.nil_append]
    simp [splitChars, resolve]
  · have hdata : (String.mk la ++ "/" ++ String.mk lb).data = la ++ '/' :: lb := by
      simp [String.data_append]
    have hhead : (la ++ '/' :: lb).head? = (la ++ lb).head? := by
      cases la with
      | nil => exact absurd rfl ha
      | cons c t => rfl
    simp only [ha, if_false, Clean_eq_resolve, hdata, splitChars_join, hhead]

/-- C10 (the claim as stated fails). `path.Join` cleans the joined path, so the
`..` segments of the relative path are cancelled, against a segment of the
relative path in the first upload and against the segments of the base in the
second; neither result holds a `..` segment. -/
theorem uploadPath_counterexample :
    uploadPath "/srv/data" "a\\..\\b.txt" "b.txt" = "/srv/data/b.txt" ∧
    uploadPath "/srv/data" "..\\..\\etc\\passwd" "passwd" = "/etc/passwd" ∧
    ".." ∉ split (uploadPath "/srv/data" "a\\..\\b.txt" "b.txt") '/' ∧
    ".." ∉ split (uploadPath "/srv/data" "..\\..\\etc\\passwd" "passwd") '/' := by
  decide

/-- C10 (amended). For every base directory and every non-empty relative path,
the remote path of the upload is the lexical resolution of the segments of the
base followed by the segments of the relative path (its backslashes read as
slashes): empty and `.` segments are dropped and each `..` cancels the
ordinary segment before it, whether that comes from the base or from the
relative path.  In the result `..` segments stand only at the start of a
relative path, before all ordinary segments, and a rooted result has none. -/
theorem uploadPath_resolves_dotdot (destPath subPath filename : String) (hsub : subPath ≠ "") :
    uploadPath destPath subPath filename =
      pathOf (joinRooted destPath (replaceAll subPath '\\' '/'))
        (resolve (joinRooted destPath (replaceAll subPath '\\' '/'))
          (joinSegments destPath (replaceAll subPath '\\' '/')) []) ∧
    (∃ ord k, resolve (joinRooted destPath (replaceAll subPath '\\' '/'))
          (joinSegments destPath (replaceAll subPath '\\' '/')) [] = stackOf ord k ∧
        (∀ seg ∈ ord, Ordinary seg) ∧
        (joinRooted destPath (replaceAll subPath '\\' '/') = true → k = 0)) ∧
    (∀ (rooted : Bool) (pre : List (List Char)) (name : List Char) (post : List (List Char)),
      Ordinary name →
      resolve rooted (pre ++ name :: dotdotSeg :: post) [] = resolve rooted (pre ++ post) []) := by
  refine ⟨?_, ?_, ?_⟩
  · have hrel : replaceAll subPath '\\' '/' ≠ "" := by
      obtain ⟨l⟩ := subPath
      intro h
      have h1 := congrArg String.data h
      simp only [replaceAll] at h1
      have h2 : l = [] := List.map_eq_nil_iff.mp h1
      exact hsub (by rw [h2])
    simp only [uploadPath, hsub, ne_eq, not_false_eq_true, if_true]
    exact Join_eq_resolve _ _ (fun h => hrel h.2)
  · have hno : ∀ s ∈ joinSegments destPath (replaceAll subPath '\\' '/'), '/' ∉ s := by
      intro s hs
      rcases List.mem_append.mp hs with h | h
      · exact splitChars_no_sep _ s h
      · exact splitChars_no_sep _ s h
    have := resolve_shape (joinRooted destPath (replaceAll subPath '\\' '/')) _ [] 0 hno
      (by simp) (fun _ => rfl)
    exact this
  · intro rooted pre name post hname
    have h1 : pre ++ name :: dotdotSeg :: post = pre ++ ([name, dotdotSeg] ++ post) := by simp
    rw [h1, resolve_append, resolve_append, resolve_cancel rooted name hname, ← resolve_append]

/-- Witness: the upload of `a\..\b.txt` below `/srv/data`. -/
theorem uploadPath_resolves_dotdot_witness :
    uploadPath "/srv/data" "a\\..\\b.txt" "b.txt" =
      pathOf (joinRooted "/srv/data" (replaceAll "a\\..\\b.txt" '\\' '/'))
        (resolve (joinRooted "/srv/data" (replaceAll "a\\..\\b.txt" '\\' '/'))
          (joinSegments "/srv/data" (replaceAll "a\\..\\b.txt" '\\' '/')) []) ∧
    pathOf (joinRooted "/srv/data" (replaceAll "a\\..\\b.txt" '\\' '/'))
        (resolve (joinRooted "/srv/data" (replaceAll "a\\..\\b.txt" '\\' '/'))
          (joinSegments "/srv/data" (replaceAll "a\\..\\b.txt" '\\' '/')) []) =
      "/srv/data/b.txt" :=
  ⟨(uploadPath_resolves_dotdot "/srv/data" "a\\..\\b.txt" "b.txt" (by decide)).1, by decide⟩

/-! ## Parent directories of an upload -/

/-- In every world the loop of `handleUpload` passes to `Mkdir` the paths
`mkdirPaths`, whatever the calls answer. -/
theorem mkdirParts_paths {σ : Type} (W : World σ) (c : SftpClient) (parts : List String) :
    ∀ (current : String) (s : σ),
      (mkdirParts W c parts current s).2.filterMap (fun ev => ev.call.mkdirPath) =
        mkdirPaths parts current := by
  induction parts with
  | nil => intro current s; rfl
  | cons p parts ih =>
    intro current s
    by_cases hp : p = ""
    · simp only [mkdirParts, mkdirPaths, hp, if_true]
      exact ih _ _
    · simp only [mkdirParts, mkdirPaths, hp, if_false, List.filterMap_cons, ih]
      rfl

theorem mkdirParts_creates {σ : Type} (W : World σ) (c : SftpClient) (parts : List String) :
    ∀ (current : String) (s : σ),
      (mkdirParts W c parts current s).2.filterMap (fun ev => ev.call.createPath) = [] := by
  induction parts with
  | nil => intro current s; rfl
  | cons p parts ih =>
    intro current s
    by_cases hp : p = ""
    · simp only [mkdirParts, hp, if_true]
      exact ih _ _
    · simp only [mkdirParts, hp, if_false, List.filterMap_cons, ih]
      rfl

/-- In every world, an upload with a `subpath` passes to `Mkdir` the paths
`mkdirPaths` of the parts of `dir`, then creates the file at `uploadPath`. -/
theorem handleUpload_calls {σ : Type} (W : World σ) (srv : Server) (c : SftpClient)
    (r : Request) (form : Form) (filename : String) (data : Bytes) (s : σ)
    (hc : srv.sftpClient = some c) (hm : r.Method = "POST") (hf : r.Form = .ok form)
    (hfile : form.file = some (filename, data)) (hsub : form.value "subpath" ≠ "") :
    (handleUpload W srv r s).2.2.filterMap (fun ev => ev.call.mkdirPath) =
      mkdirPaths (split (uploadDir (if form.value "path" = "" then "." else form.value "path")
        (form.value "subpath")) '/') "" ∧
    (handleUpload W srv r s).2.2.filterMap (fun ev => ev.call.createPath) =
      [uploadPath (if form.value "path" = "" then "." else form.value "path")
        (form.value "subpath") filename] := by
  have h1 := mkdirParts_paths W c (split (uploadDir
    (if form.value "path" = "" then "." else form.value "path") (form.value "subpath")) '/') "" s
  have h2 := mkdirParts_creates W c (split (uploadDir
    (if form.value "path" = "" then "." else form.value "path") (form.value "subpath")) '/') "" s
  simp only [uploadDir] at h1 h2
  simp only [handleUpload, hm, hc, hf, hfile, hsub, ne_eq, not_true_eq_false, if_false,
    not_false_eq_true, if_true, uploadDir]
  rcases hmk : mkdirParts W c
    (split (Join (if form.value "path" = "" then "." else form.value "path")
      (Dir (replaceAll (form.value "subpath") '\\' '/'))) '/') "" s with ⟨s1, t1⟩
  rw [hmk] at h1 h2
  simp only at h1 h2 ⊢
  rcases hcr : W.Create c (uploadPath (if form.value "path" = "" then "." else form.value "path")
    (form.value "subpath") filename) s1 with ⟨e, s2⟩
  cases e with
  | some err =>
    simp only [List.filterMap_append, h1, h2, List.filterMap_cons, List.filterMap_nil]
    simp [Call.mkdirPath, Call.createPath]
  | none =>
    rcases hwr : W.Write c (uploadPath (if form.value "path" = "" then "." else
      form.value "path") (form.value "subpath") filename) data s2 with ⟨res, s3⟩
    cases res <;>
      simp only [hwr, List.filterMap_append, h1, h2, List.filterMap_cons,
        List.filterMap_nil] <;>
      simp [Call.mkdirPath, Call.createPath]

/-- The parts of a written path: its segments, after an empty part when it is
rooted. -/
theorem splitChars_outOf (rooted : Bool) (stack : List (List Char)) (hne : stack ≠ [])
    (hall : ∀ seg ∈ stack, '/' ∉ seg) :
    splitChars '/' (outOf rooted stack).reverse =
      (if rooted then [[]] else []) ++ stack.reverse := by
  induction stack with
  | nil => exact absurd rfl hne
  | cons seg below ih =>
    have hseg : '/' ∉ seg := hall seg (by simp)
    rw [outOf_cons]
    by_cases hb : below = []
    · subst hb
      cases rooted
      · simp [outOf, rootOf, splitChars_field seg hseg]
      · simp [outOf, rootOf, splitChars, splitChars_field seg hseg]
    · have := ih hb (fun s hs => hall s (by simp [hs]))
      simp only [hb, if_false, List.reverse_append, List.reverse_reverse, List.reverse_cons,
        List.append_assoc, List.singleton_append]
      rw [splitChars_join, this, splitChars_field seg hseg]
      simp

theorem mkdirPaths_snoc (parts : List String) (p : String) (hp : p ≠ "") :
    ∀ (current : String), (∀ q ∈ parts, q ≠ "") →
      mkdirPaths (parts ++ [p]) current =
        mkdirPaths parts current ++
          [if (mkdirPaths parts current).getLastD current = "" then p
            else (mkdirPaths parts current).getLastD current ++ "/" ++ p] := by
  induction parts with
  | nil => intro current _; simp [mkdirPaths, hp]
  | cons q parts ih =>
    intro current hq
    have hq0 : q ≠ "" := hq q (by simp)
    rw [List.cons_append]
    simp only [mkdirPaths, hq0, if_false, List.getLastD_cons]
    rw [ih _ (fun x hx => hq x (by simp [hx]))]
    simp

theorem ancestors_getLastD (rooted : Bool) (stack : List (List Char)) (d : String) :
    (ancestors rooted stack).getLastD d =
      if stack = [] then d else String.mk (outOf rooted stack).reverse := by
  cases stack with
  | nil => rfl
  | cons seg below => simp [ancestors, List.getLastD_eq_getLast?]

theorem outOf_ne_nil (rooted : Bool) (stack : List (List Char)) (hne : stack ≠ [])
    (hall : ∀ seg ∈ stack, seg ≠ []) : outOf rooted stack ≠ [] := by
  intro h
  have := outOf_length_pos rooted stack hne hall
  rw [h] at this
  simp at this

/-- For a relative path, the loop of `handleUpload` passes to `Mkdir` exactly
the successive ancestor prefixes of the path. -/
theorem mkdirPaths_relative (stack : List (List Char)) (hall : ∀ seg ∈ stack, seg ≠ []) :
    mkdirPaths (stack.reverse.map String.mk) "" = ancestors false stack := by
  induction stack with
  | nil => rfl
  | cons seg below ih =>
    have hseg : String.mk seg ≠ "" := fun h => hall seg (by simp) ((string_eq_empty _).mp h)
    have hbelow : ∀ s ∈ below, s ≠ [] := fun s hs => hall s (by simp [hs])
    have hparts : ∀ q ∈ below.reverse.map String.mk, q ≠ "" := by
      intro q hq
      obtain ⟨x, hx, rfl⟩ := List.mem_map.mp hq
      exact fun h => hbelow x (List.mem_reverse.mp hx) ((string_eq_empty _).mp h)
    rw [List.reverse_cons, List.map_append, List.map_singleton,
      mkdirPaths_snoc _ _ hseg "" hparts, ih hbelow, ancestors_getLastD, ancestors]
    congr 1
    by_cases hb : below = []
    · subst hb
      simp [outOf, rootOf]
    · have hne : String.mk (outOf false below).reverse ≠ "" := by
        intro h
        have := (string_eq_empty _).mp h
        exact outOf_ne_nil false below hb hbelow (List.reverse_eq_nil_iff.mp this)
      simp only [hb, if_false, hne, outOf_cons, List.singleton_inj]
      apply String.ext
      simp [String.data_append]

/-- For a rooted path, the loop of `handleUpload` passes to `Mkdir` the
successive ancestor prefixes of the path, each with one more slash in front:
after the empty first part `current` is `/`, and the next part is appended
behind another slash. -/
theorem mkdirPaths_rooted (stack : List (List Char)) (hall : ∀ seg ∈ stack, seg ≠ []) :
    mkdirPaths ("" :: stack.reverse.map String.mk) "" =
      (ancestors true stack).map (fun p => "/" ++ p) := by
  have hstart : mkdirPaths ("" :: stack.reverse.map String.mk) "" =
      mkdirPaths (stack.reverse.map String.mk) "/" := by simp [mkdirPaths]
  rw [hstart]
  clear hstart
  induction stack with
  | nil => rfl
  | cons seg below ih =>
    have hseg : String.mk seg ≠ "" := fun h => hall seg (by simp) ((string_eq_empty _).mp h)
    have hbelow : ∀ s ∈ below, s ≠ [] := fun s hs => hall s (by simp [hs])
    have hparts : ∀ q ∈ below.reverse.map String.mk, q ≠ "" := by
      intro q hq
      obtain ⟨x, hx, rfl⟩ := List.mem_map.mp hq
      exact fun h => hbelow x (List.mem_reverse.mp hx) ((string_eq_empty _).mp h)
    have hlast : (List.map (fun p => "/" ++ p) (ancestors true below)).getLastD "/" =
        if below = [] then "/" else "/" ++ String.mk (outOf true below).reverse := by
      cases below with
      | nil => rfl
      | cons x xs => simp [ancestors, List.getLastD_eq_getLast?]
    rw [List.reverse_cons, List.map_append, List.map_singleton,
      mkdirPaths_snoc _ _ hseg "/" hparts, ih hbelow, hlast, ancestors, List.map_append,
      List.map_singleton]
    congr 1
    by_cases hb : below = []
    · subst hb
      have h1 : ("/" : String) ≠ "" := by decide
      simp only [if_true, h1, if_false, outOf_cons, List.singleton_inj]
      apply String.ext
      simp [String.data_append, outOf, rootOf]
    · have hne : "/" ++ String.mk (outOf true below).reverse ≠ "" := by
        intro h
        have := congrArg String.data h
        simp [String.data_append] at this
      simp only [hb, if_false, hne, outOf_cons, List.singleton_inj]
      apply String.ext
      simp [String.data_append]

theorem stackOf_no_slash (ord : List (List Char)) (k : Nat) (hord : ∀ seg ∈ ord, Ordinary seg) :
    ∀ seg ∈ stackOf ord k, '/' ∉ seg := by
  intro seg hseg
  rcases List.mem_append.mp hseg with h | h
  · exact (hord seg h).2.1
  · rw [List.eq_of_mem_replicate h]
    decide

/-- The paths an upload passes to `Mkdir`, for every destination and `subpath`:
when `dir` is relative they are exactly its successive ancestor prefixes, the
last one `dir` itself; when `dir` is rooted each of them has one more slash in
front than the ancestor prefix it stands for. -/
theorem uploadDir_mkdirPaths (destPath subPath : String) (hdest : destPath ≠ "")
    (hstack : resolve (joinRooted destPath (Dir (replaceAll subPath '\\' '/')))
      (joinSegments destPath (Dir (replaceAll subPath '\\' '/'))) [] ≠ []) :
    uploadDir destPath subPath =
      String.mk (outOf (joinRooted destPath (Dir (replaceAll subPath '\\' '/')))
        (resolve (joinRooted destPath (Dir (replaceAll subPath '\\' '/')))
          (joinSegments destPath (Dir (replaceAll subPath '\\' '/'))) [])).reverse ∧
    mkdirPaths (split (uploadDir destPath subPath) '/') "" =
      (if joinRooted destPath (Dir (replaceAll subPath '\\' '/')) = true then
        (ancestors true (resolve true
          (joinSegments destPath (Dir (replaceAll subPath '\\' '/'))) [])).map
            (fun p => "/" ++ p)
      else
        ancestors false (resolve false
          (joinSegments destPath (Dir (replaceAll subPath '\\' '/'))) [])) := by
  have hno : ∀ s ∈ joinSegments destPath (Dir (replaceAll subPath '\\' '/')), '/' ∉ s := by
    intro s hs
    rcases List.mem_append.mp hs with h | h
    · exact splitChars_no_sep _ s h
    · exact splitChars_no_sep _ s h
  obtain ⟨ord, k, hshape, hord, _⟩ :=
    resolve_shape (joinRooted destPath (Dir (replaceAll subPath '\\' '/'))) _ [] 0 hno
      (by simp) (fun _ => rfl)
  have hshape2 : resolve (joinRooted destPath (Dir (replaceAll subPath '\\' '/')))
      (joinSegments destPath (Dir (replaceAll subPath '\\' '/'))) [] = stackOf ord k := hshape
  have hne := stackOf_nonempty ord k hord
  have hsl := stackOf_no_slash ord k hord
  rw [← hshape2] at hne hsl
  have hdir : uploadDir destPath subPath =
      String.mk (outOf (joinRooted destPath (Dir (replaceAll subPath '\\' '/')))
        (resolve (joinRooted destPath (Dir (replaceAll subPath '\\' '/')))
          (joinSegments destPath (Dir (replaceAll subPath '\\' '/'))) [])).reverse := by
    have hj := Join_eq_resolve destPath (Dir (replaceAll subPath '\\' '/'))
      (fun h => hdest h.1)
    have hlen : (outOf (joinRooted destPath (Dir (replaceAll subPath '\\' '/')))
        (resolve (joinRooted destPath (Dir (replaceAll subPath '\\' '/')))
          (joinSegments destPath (Dir (replaceAll subPath '\\' '/'))) [])).length ≠ 0 := by
      intro h0
      exact outOf_ne_nil _ _ hstack hne (List.length_eq_zero.mp h0)
    rw [uploadDir, hj]
    simp only [pathOf, joinRooted, joinSegments] at hlen ⊢
    rw [if_neg hlen]
  refine ⟨hdir, ?_⟩
  rw [hdir]
  simp only [split]
  rw [splitChars_outOf _ _ hstack hsl]
  cases hr : joinRooted destPath (Dir (replaceAll subPath '\\' '/'))
  · rw [hr] at hne
    simp only [Bool.false_eq_true, if_false, List.nil_append]
    exact mkdirPaths_relative _ hne
  · rw [hr] at hne
    simp only [if_true, List.singleton_append, List.map_cons]
    exact mkdirPaths_rooted _ hne

/-- C11 (the code departs from the claim). An upload with destination `/srv`
and `subpath` `a/b.txt`, in every world: the file is created at
`/srv/a/b.txt`, whose parent directory is `/srv/a`, but the paths passed to
`Mkdir` are `//srv` and `//srv/a`.  After the empty first part of `/srv/a` the
loop sets `current` to `/` and then appends `/` and the next part, so every
path has a doubled slash in front: the first is not a prefix of the parent
directory path and the last is not the parent directory path. -/
theorem handleUpload_mkdir_absolute_base {σ : Type} (W : World σ) (s : σ) :
    (handleUpload W ⟨some ⟨0⟩, some ⟨⟨0⟩⟩, 1⟩
        ⟨"POST", [], none, .ok ⟨[("path", "/srv"), ("subpath", "a/b.txt")], some ("b.txt", [1])⟩⟩
        s).2.2.filterMap (fun ev => ev.call.mkdirPath) = ["//srv", "//srv/a"] ∧
    (handleUpload W ⟨some ⟨0⟩, some ⟨⟨0⟩⟩, 1⟩
        ⟨"POST", [], none, .ok ⟨[("path", "/srv"), ("subpath", "a/b.txt")], some ("b.txt", [1])⟩⟩
        s).2.2.filterMap (fun ev => ev.call.createPath) = ["/srv/a/b.txt"] ∧
    Dir "/srv/a/b.txt" = "/srv/a" ∧ uploadDir "/srv" "a/b.txt" = "/srv/a" ∧
    ¬ ("//srv".data <+: "/srv/a".data) ∧ "//srv/a" ≠ "/srv/a" := by
  obtain ⟨h1, h2⟩ := handleUpload_calls W ⟨some ⟨0⟩, some ⟨⟨0⟩⟩, 1⟩ ⟨⟨0⟩⟩
    ⟨"POST", [], none, .ok ⟨[("path", "/srv"), ("subpath", "a/b.txt")], some ("b.txt", [1])⟩⟩
    ⟨[("path", "/srv"), ("subpath", "a/b.txt")], some ("b.txt", [1])⟩ "b.txt" [1] s
    rfl rfl rfl rfl (by decide)
  refine ⟨h1.trans (by decide), h2.trans (by decide), by decide, by decide, by decide,
    by decide⟩

end Gateway
